import Mathlib

/-!
# Verification of the SDN control-plane simulator (`sdn.py`)

A shallow embedding of the `SDNController` class.  The Python code keeps

* `self.topology` — a `networkx.Graph` (undirected, weighted); embedded as a
  list of nodes plus a list of undirected edges `(u, v, weight)`;
* `self.link_utilization` — a `dict` from ordered node pair to the reserved
  bandwidth; embedded as an association list;
* `self.flows` — a list of flow records.

Edge weights are embedded as `Nat`: `networkx` shortest-path routines used by
`compute_path` (Dijkstra) reject negative weights, so non-negative weights are
the domain on which the routing code is defined.  Bandwidths are `Int`, as the
command loop parses them with Python `int()`.

Operations that perform unguarded `dict` increments (`inject_traffic_flow` and
the reroute loop of `simulate_link_failure`) may raise `KeyError` in Python;
they are embedded as `Option`-returning functions where `none` models that
uncaught exception.  Benign failures (printed error messages followed by an
early `return`) leave the state unchanged and return `some`.

`networkx.all_shortest_paths` is third-party library code; it is embedded by
its documented semantics: the set of all minimum-total-weight simple paths
between the two endpoints (enumerated here from permutations of node subsets,
in an unspecified but deterministic order; no claim depends on the order).
-/

/-- A flow record, as built by `inject_traffic_flow` (the Python code stores
it as a plain dict with these five fields). -/
structure TrafficFlow where
  src : String
  dst : String
  traffic_type : String
  bandwidth : Int
  path : List String
deriving DecidableEq

/-- The controller state: `topology` as node list + edge list, the active
flow list, and the link-utilization ledger as an association list. -/
structure SDNState where
  nodes : List String
  edges : List (String × String × Nat)
  flows : List TrafficFlow
  link_utilization : List ((String × String) × Int)
deriving DecidableEq

/-- The state built by `SDNController.__init__`. -/
def initState : SDNState := ⟨[], [], [], []⟩

/-- Boolean list membership for node names. -/
def memB (x : String) : List String → Bool
  | [] => false
  | y :: rest => if y = x then true else memB x rest

/-- `self.topology.has_node(n)`. -/
def hasNode (s : SDNState) (n : String) : Bool := memB n s.nodes

/-- Find the weight of the undirected edge `{u, v}` in an edge list. -/
def findEdge (u v : String) : List (String × String × Nat) → Option Nat
  | [] => none
  | (a, b, w) :: rest =>
      if (a = u ∧ b = v) ∨ (a = v ∧ b = u) then some w else findEdge u v rest

/-- `self.topology.has_edge(u, v)`. -/
def hasEdge (s : SDNState) (u v : String) : Bool := (findEdge u v s.edges).isSome

/-- The weight `networkx` stores for edge `{u, v}` (0 when absent; only read
on existing edges). -/
def edgeWeight (s : SDNState) (u v : String) : Nat := (findEdge u v s.edges).getD 0

/-- Look a key up in the utilization dictionary. -/
def lookupL : List ((String × String) × Int) → (String × String) → Option Int
  | [], _ => none
  | (k, x) :: rest, key => if k = key then some x else lookupL rest key

/-- `key in self.link_utilization`. -/
def memKey (L : List ((String × String) × Int)) (k : String × String) : Bool :=
  (lookupL L k).isSome

/-- `self.link_utilization[k] = x` (dict assignment: create or overwrite). -/
def setKey (L : List ((String × String) × Int)) (k : String × String) (x : Int) :
    List ((String × String) × Int) :=
  L.filter (fun kv => !decide (kv.1 = k)) ++ [(k, x)]

/-- `self.link_utilization.pop(k, None)`. -/
def popKey (L : List ((String × String) × Int)) (k : String × String) :
    List ((String × String) × Int) :=
  L.filter (fun kv => !decide (kv.1 = k))

/-- `self.link_utilization[k] += d` — `none` models the `KeyError` raised when
the key is absent. -/
def incKey (L : List ((String × String) × Int)) (k : String × String) (d : Int) :
    Option (List ((String × String) × Int)) :=
  match lookupL L k with
  | none => none
  | some x => some (setKey L k (x + d))

/-- `if k in self.link_utilization: self.link_utilization[k] -= d`. -/
def decKeyIfPresent (L : List ((String × String) × Int)) (k : String × String) (d : Int) :
    List ((String × String) × Int) :=
  match lookupL L k with
  | none => L
  | some x => setKey L k (x - d)

/-- `SDNController.add_node`. -/
def add_node (s : SDNState) (n : String) : SDNState :=
  if hasNode s n then s else { s with nodes := s.nodes ++ [n] }

/-- `SDNController.remove_node`: `networkx` removes the node and every
incident edge; the Python method touches nothing else. -/
def remove_node (s : SDNState) (n : String) : SDNState :=
  if !hasNode s n then s
  else
    { s with
      nodes := s.nodes.filter (fun m => !decide (m = n)),
      edges := s.edges.filter (fun e => !decide (e.1 = n ∨ e.2.1 = n)) }

/-- Drop any stored copy of the undirected edge `{u, v}` (so that
`add_edge` overwrites). -/
def eraseEdge (u v : String) (es : List (String × String × Nat)) :
    List (String × String × Nat) :=
  es.filter (fun e => !decide ((e.1 = u ∧ e.2.1 = v) ∨ (e.1 = v ∧ e.2.1 = u)))

/-- `SDNController.add_link`. -/
def add_link (s : SDNState) (u v : String) (w : Nat) : SDNState :=
  if !hasNode s u ∨ !hasNode s v then s
  else
    { s with
      edges := eraseEdge u v s.edges ++ [(u, v, w)],
      link_utilization := setKey (setKey s.link_utilization (u, v) 0) (v, u) 0 }

/-- `SDNController.remove_link`. -/
def remove_link (s : SDNState) (u v : String) : SDNState :=
  if !hasEdge s u v then s
  else
    { s with
      edges := eraseEdge u v s.edges,
      link_utilization := popKey (popKey s.link_utilization (u, v)) (v, u) }

/-- Boolean test that consecutive elements are joined by topology edges. -/
def chainB (s : SDNState) : List String → Bool
  | a :: b :: rest => hasEdge s a b && chainB s (b :: rest)
  | _ => true

/-- Boolean test: `p` is a walk in the topology from `src` to `dst` (nonempty,
correct endpoints, consecutive elements adjacent, all elements nodes). -/
def isWalkB (s : SDNState) (p : List String) (src dst : String) : Bool :=
  decide (p.head? = some src) && decide (p.getLast? = some dst) &&
    chainB s p && p.all (fun x => memB x s.nodes)

/-- `p` is a walk in the topology from `src` to `dst`. -/
def isWalk (s : SDNState) (p : List String) (src dst : String) : Prop :=
  isWalkB s p src dst = true

/-- Total edge weight of a path (standard shortest-path cost). -/
def pathWeight (s : SDNState) : List String → Nat
  | a :: b :: rest => edgeWeight s a b + pathWeight s (b :: rest)
  | _ => 0

/-- `sum(self.link_utilization.get((p[i], p[i+1]), 0) for i ...)` — the
congestion key used to sort candidate paths. -/
def utilSum (L : List ((String × String) × Int)) : List String → Int
  | a :: b :: rest => (lookupL L (a, b)).getD 0 + utilSum L (b :: rest)
  | _ => 0

/-- Boolean duplicate-freedom test. -/
def nodupB : List String → Bool
  | [] => true
  | x :: rest => !memB x rest && nodupB rest

/-- All sequences of length at most `k` drawn (with repetition) from `l`. -/
def seqsUpTo (l : List String) : Nat → List (List String)
  | 0 => [[]]
  | k + 1 => [] :: (seqsUpTo l k).flatMap (fun t => l.map (· :: t))

/-- A finite superset of every simple path of the topology: sequences over the
deduplicated node list of length at most the number of distinct nodes. -/
def pathCandidates (s : SDNState) : List (List String) :=
  seqsUpTo s.nodes.dedup s.nodes.dedup.length

/-- All simple paths from `src` to `dst` in the topology. -/
def allPaths (s : SDNState) (src dst : String) : List (List String) :=
  (pathCandidates s).filter (fun p => nodupB p && isWalkB s p src dst)

/-- Modelled semantics of `networkx.all_shortest_paths` (third-party library
code): all minimum-total-weight simple paths from `src` to `dst`, empty when
none exists (`NetworkXNoPath`). -/
def all_shortest_paths (s : SDNState) (src dst : String) : List (List String) :=
  (allPaths s src dst).filter
    (fun p => (allPaths s src dst).all (fun q => decide (pathWeight s p ≤ pathWeight s q)))

/-- First element of the list minimizing `utilSum` — the effect of Python's
stable `paths.sort(key=...)` followed by `paths[0]`. -/
def pickMin (L : List ((String × String) × Int)) (ps : List (List String)) :
    Option (List String) :=
  ps.foldl
    (fun acc p =>
      match acc with
      | none => some p
      | some q => if utilSum L p < utilSum L q then some p else some q)
    none

/-- `SDNController.compute_path`. -/
def compute_path (s : SDNState) (src dst traffic_type : String) : Option (List String) :=
  if hasNode s src && hasNode s dst then
    pickMin s.link_utilization (all_shortest_paths s src dst)
  else none

/-- The unguarded increment loop of `inject_traffic_flow` (and of the reroute
branch of `simulate_link_failure`): for every consecutive pair `(u, v)` of the
path, `+= bandwidth` on both `(u, v)` and `(v, u)`; `none` models `KeyError`. -/
def incPath (L : List ((String × String) × Int)) :
    List String → Int → Option (List ((String × String) × Int))
  | a :: b :: rest, bw =>
      match incKey L (a, b) bw with
      | none => none
      | some L1 =>
          match incKey L1 (b, a) bw with
          | none => none
          | some L2 => incPath L2 (b :: rest) bw
  | _, _ => some L

/-- The guarded decrement loop of `simulate_link_failure`: for every
consecutive pair `(a, b)` of the old path, `-= bandwidth` on `(a, b)` and on
`(b, a)` wherever the entry still exists. -/
def decPath (L : List ((String × String) × Int)) :
    List String → Int → List ((String × String) × Int)
  | a :: b :: rest, bw =>
      decPath (decKeyIfPresent (decKeyIfPresent L (a, b) bw) (b, a) bw) (b :: rest) bw
  | _, _ => L

/-- `SDNController.inject_traffic_flow`.  Returns `none` on `KeyError`;
otherwise `some (state', result)` where `result` is the admitted path on
success and `none` on a benign failure (missing endpoint / no route). -/
def inject_traffic_flow (s : SDNState) (src dst traffic_type : String) (bandwidth : Int) :
    Option (SDNState × Option (List String)) :=
  if !hasNode s src ∨ !hasNode s dst then some (s, none)
  else
    match compute_path s src dst traffic_type with
    | none => some (s, none)
    | some path =>
        match incPath s.link_utilization path bandwidth with
        | none => none
        | some L' =>
            some
              ({ s with
                  flows := s.flows ++ [⟨src, dst, traffic_type, bandwidth, path⟩],
                  link_utilization := L' },
                some path)

/-- The body of the `for flow in self.flows` loop of `simulate_link_failure`,
for one flow: when both failed endpoints appear anywhere in the flow's path,
release the old path, recompute, and reroute when possible. -/
def processFlow (u v : String) (s : SDNState) (f : TrafficFlow) :
    Option (SDNState × TrafficFlow) :=
  if memB u f.path && memB v f.path then
    match compute_path
        { s with link_utilization := decPath s.link_utilization f.path f.bandwidth }
        f.src f.dst f.traffic_type with
    | some np =>
        match incPath (decPath s.link_utilization f.path f.bandwidth) np f.bandwidth with
        | none => none
        | some L2 => some ({ s with link_utilization := L2 }, { f with path := np })
    | none =>
        some ({ s with link_utilization := decPath s.link_utilization f.path f.bandwidth }, f)
  else some (s, f)

/-- The whole `for flow in self.flows` loop, threading the mutated state. -/
def processFlows (u v : String) (s : SDNState) : List TrafficFlow → Option (SDNState × List TrafficFlow)
  | [] => some (s, [])
  | f :: fs =>
      match processFlow u v s f with
      | none => none
      | some (s1, f') =>
          match processFlows u v s1 fs with
          | none => none
          | some (s2, fs') => some (s2, f' :: fs')

/-- `SDNController.simulate_link_failure`. -/
def simulate_link_failure (s : SDNState) (u v : String) : Option SDNState :=
  if !hasEdge s u v then some s
  else
    match processFlows u v (remove_link s u v) (remove_link s u v).flows with
    | none => none
    | some (s1, fs') => some { s1 with flows := fs' }

/-- `SDNController.query_routing`: computes and prints, mutating nothing. -/
def query_routing (s : SDNState) (src dst : String) : SDNState := s

/-- One command of the control interface. -/
inductive Op where
  | addNode (n : String)
  | removeNode (n : String)
  | addLink (u v : String) (w : Nat)
  | removeLink (u v : String)
  | injectFlow (src dst traffic_type : String) (bw : Int)
  | failLink (u v : String)
  | queryRoute (src dst : String)
deriving DecidableEq

/-- Run one command (`none` models an uncaught `KeyError`). -/
def applyOp (s : SDNState) : Op → Option SDNState
  | .addNode n => some (add_node s n)
  | .removeNode n => some (remove_node s n)
  | .addLink u v w => some (add_link s u v w)
  | .removeLink u v => some (remove_link s u v)
  | .injectFlow src dst t bw => (inject_traffic_flow s src dst t bw).map Prod.fst
  | .failLink u v => simulate_link_failure s u v
  | .queryRoute src dst => some (query_routing s src dst)

/-- Run a command sequence. -/
def runList (s : SDNState) : List Op → Option SDNState
  | [] => some s
  | op :: ops =>
      match applyOp s op with
      | none => none
      | some s' => runList s' ops

/-- The final state of a command sequence started from the freshly constructed
controller (total, for concrete evaluation; defaults to `initState`). -/
def runD (ops : List Op) : SDNState := (runList initState ops).getD initState

example : hasNode (add_node initState "a") "a" = true := by decide

example :
    compute_path (runD [.addNode "a", .addNode "b", .addNode "c",
      .addLink "a" "b" 1, .addLink "b" "c" 1, .addLink "a" "c" 5]) "a" "c" "data" =
      some ["a", "b", "c"] := by decide

/-! ## Association-list lemmas -/

abbrev Ledger := List ((String × String) × Int)

theorem lookupL_append (L1 L2 : Ledger) (k : String × String) :
    lookupL (L1 ++ L2) k =
      match lookupL L1 k with
      | some x => some x
      | none => lookupL L2 k := by
  induction L1 with
  | nil => simp [lookupL]
  | cons kv rest ih =>
      obtain ⟨k', x⟩ := kv
      by_cases h : k' = k <;> simp [lookupL, h, ih]

theorem lookupL_filterKey (L : Ledger) (k k' : String × String) :
    lookupL (L.filter (fun kv => !decide (kv.1 = k))) k' =
      if k' = k then none else lookupL L k' := by
  induction L with
  | nil => simp [lookupL]
  | cons kv rest ih =>
      obtain ⟨k0, x⟩ := kv
      by_cases h0 : k0 = k
      · rw [List.filter_cons, if_neg (by simp [h0]), ih]
        by_cases h1 : k' = k
        · rw [if_pos h1, if_pos h1]
        · rw [if_neg h1, if_neg h1]
          have hne : ¬(k0 = k') := fun hc => h1 (hc ▸ h0)
          simp [lookupL, hne]
      · rw [List.filter_cons, if_pos (by simp [h0])]
        by_cases h2 : k0 = k'
        · have hk : ¬(k' = k) := fun hc => h0 (h2.trans hc)
          rw [if_neg hk]
          simp [lookupL, h2]
        · by_cases h1 : k' = k
          · subst h1; simp [lookupL, h2, ih, h0]
          · simp [lookupL, h2, ih, h1, h0]

theorem lookupL_popKey_self (L : Ledger) (k : String × String) :
    lookupL (popKey L k) k = none := by
  simp [popKey, lookupL_filterKey]

theorem lookupL_popKey_ne (L : Ledger) (k k' : String × String) (h : k' ≠ k) :
    lookupL (popKey L k) k' = lookupL L k' := by
  simp [popKey, lookupL_filterKey, h]

theorem lookupL_setKey_self (L : Ledger) (k : String × String) (x : Int) :
    lookupL (setKey L k x) k = some x := by
  simp [setKey, lookupL_append, lookupL_filterKey, lookupL]

theorem lookupL_setKey_ne (L : Ledger) (k k' : String × String) (x : Int) (h : k' ≠ k) :
    lookupL (setKey L k x) k' = lookupL L k' := by
  simp only [setKey, lookupL_append, lookupL_filterKey, if_neg h]
  cases lookupL L k' with
  | none => simp [lookupL, Ne.symm h]
  | some y => rfl

theorem lookupL_decKeyIfPresent_self (L : Ledger) (k : String × String) (d : Int) :
    lookupL (decKeyIfPresent L k d) k = (lookupL L k).map (fun x => x - d) := by
  unfold decKeyIfPresent
  cases h : lookupL L k with
  | none => simp [h]
  | some x => simp [lookupL_setKey_self]

theorem lookupL_decKeyIfPresent_ne (L : Ledger) (k k' : String × String) (d : Int)
    (h : k' ≠ k) :
    lookupL (decKeyIfPresent L k d) k' = lookupL L k' := by
  unfold decKeyIfPresent
  cases hk : lookupL L k with
  | none => rfl
  | some x => simp [lookupL_setKey_ne _ _ _ _ h]

theorem incKey_eq_some_iff (L : Ledger) (k : String × String) (d : Int) :
    (∃ L', incKey L k d = some L') ↔ memKey L k = true := by
  unfold incKey memKey
  cases lookupL L k <;> simp

theorem incKey_lookup_self (L L' : Ledger) (k : String × String) (d : Int)
    (h : incKey L k d = some L') :
    lookupL L' k = (lookupL L k).map (fun x => x + d) := by
  unfold incKey at h
  cases hk : lookupL L k with
  | none => rw [hk] at h; exact absurd h (by simp)
  | some x => rw [hk] at h; cases h; simp [lookupL_setKey_self, hk]

theorem incKey_lookup_ne (L L' : Ledger) (k k' : String × String) (d : Int)
    (h : incKey L k d = some L') (hne : k' ≠ k) :
    lookupL L' k' = lookupL L k' := by
  unfold incKey at h
  cases hk : lookupL L k with
  | none => rw [hk] at h; exact absurd h (by simp)
  | some x => rw [hk] at h; cases h; exact lookupL_setKey_ne _ _ _ _ hne

theorem incKey_memKey (L L' : Ledger) (k k' : String × String) (d : Int)
    (h : incKey L k d = some L') :
    memKey L' k' = memKey L k' := by
  by_cases hne : k' = k
  · subst hne
    unfold memKey
    rw [incKey_lookup_self L L' k' d h]
    cases lookupL L k' <;> simp
  · unfold memKey
    rw [incKey_lookup_ne L L' k k' d h hne]

theorem decKeyIfPresent_memKey (L : Ledger) (k k' : String × String) (d : Int) :
    memKey (decKeyIfPresent L k d) k' = memKey L k' := by
  by_cases hne : k' = k
  · subst hne
    unfold memKey
    rw [lookupL_decKeyIfPresent_self]
    cases lookupL L k' <;> simp
  · unfold memKey
    rw [lookupL_decKeyIfPresent_ne _ _ _ _ hne]

/-! ## Boolean-test characterizations -/

theorem memB_iff (x : String) (l : List String) : memB x l = true ↔ x ∈ l := by
  induction l with
  | nil => simp [memB]
  | cons y rest ih =>
      by_cases h : y = x
      · subst h; simp [memB]
      · simp [memB, h, ih, eq_comm]
        intro h'
        exact absurd h'.symm h

theorem nodupB_iff (l : List String) : nodupB l = true ↔ l.Nodup := by
  induction l with
  | nil => simp [nodupB]
  | cons x rest ih =>
      simp only [nodupB, Bool.and_eq_true, Bool.not_eq_true', List.nodup_cons, ih]
      rw [show (memB x rest = false) ↔ ¬(memB x rest = true) by simp, memB_iff]

theorem hasNode_iff (s : SDNState) (n : String) : hasNode s n = true ↔ n ∈ s.nodes :=
  memB_iff n s.nodes

theorem hasEdge_iff (s : SDNState) (u v : String) :
    hasEdge s u v = true ↔
      ∃ e ∈ s.edges, (e.1 = u ∧ e.2.1 = v) ∨ (e.1 = v ∧ e.2.1 = u) := by
  unfold hasEdge
  induction s.edges with
  | nil => simp [findEdge]
  | cons e rest ih =>
      obtain ⟨a, b, w⟩ := e
      by_cases h : (a = u ∧ b = v) ∨ (a = v ∧ b = u)
      · simp [findEdge, h]
      · simp [findEdge, h, ih]

theorem findEdge_symm (u v : String) (es : List (String × String × Nat)) :
    findEdge u v es = findEdge v u es := by
  induction es with
  | nil => rfl
  | cons e rest ih =>
      obtain ⟨a, b, w⟩ := e
      by_cases h : (a = u ∧ b = v) ∨ (a = v ∧ b = u)
      · simp [findEdge, h, Or.symm h]
      · have h' : ¬((a = v ∧ b = u) ∨ (a = u ∧ b = v)) := fun hc => h (Or.symm hc)
        simp [findEdge, h, h', ih]

theorem hasEdge_symm (s : SDNState) (u v : String) : hasEdge s u v = hasEdge s v u := by
  unfold hasEdge
  rw [findEdge_symm]

theorem edgeWeight_symm (s : SDNState) (u v : String) : edgeWeight s u v = edgeWeight s v u := by
  unfold edgeWeight
  rw [findEdge_symm]

/-! ## Walks and path enumeration -/

theorem isWalk_iff (s : SDNState) (p : List String) (src dst : String) :
    isWalk s p src dst ↔
      p.head? = some src ∧ p.getLast? = some dst ∧ chainB s p = true ∧
        ∀ x ∈ p, x ∈ s.nodes := by
  simp [isWalk, isWalkB, Bool.and_eq_true, List.all_eq_true, memB_iff, and_assoc]

theorem mem_seqsUpTo (l : List String) (k : Nat) (p : List String) :
    p ∈ seqsUpTo l k ↔ p.length ≤ k ∧ ∀ x ∈ p, x ∈ l := by
  induction k generalizing p with
  | zero =>
      simp only [seqsUpTo, List.mem_singleton, Nat.le_zero, List.length_eq_zero]
      constructor
      · rintro rfl; simp
      · rintro ⟨rfl, -⟩; rfl
  | succ k ih =>
      simp only [seqsUpTo, List.mem_cons, List.mem_flatMap, List.mem_map]
      constructor
      · rintro (rfl | ⟨t, ht, a, ha, rfl⟩)
        · simp
        · obtain ⟨hlen, hmem⟩ := (ih t).mp ht
          refine ⟨by simpa using Nat.succ_le_succ hlen, ?_⟩
          intro x hx
          rcases List.mem_cons.mp hx with rfl | hx'
          · exact ha
          · exact hmem x hx'
      · rintro ⟨hlen, hmem⟩
        cases p with
        | nil => exact Or.inl rfl
        | cons a t =>
            refine Or.inr ⟨t, (ih t).mpr ⟨Nat.le_of_succ_le_succ (by simpa using hlen), ?_⟩,
              a, hmem a (by simp), rfl⟩
            intro x hx
            exact hmem x (List.mem_cons_of_mem a hx)

theorem mem_allPaths (s : SDNState) (src dst : String) (p : List String) :
    p ∈ allPaths s src dst ↔ p.Nodup ∧ isWalk s p src dst := by
  unfold allPaths pathCandidates
  rw [List.mem_filter]
  simp only [Bool.and_eq_true, nodupB_iff]
  constructor
  · rintro ⟨-, hnd, hw⟩
    exact ⟨hnd, hw⟩
  · rintro ⟨hnd, hw⟩
    refine ⟨?_, hnd, hw⟩
    rw [mem_seqsUpTo]
    have hsub : p ⊆ s.nodes.dedup := by
      intro x hx
      rw [List.mem_dedup]
      exact ((isWalk_iff s p src dst).mp hw).2.2.2 x hx
    exact ⟨(List.subperm_of_subset hnd hsub).length_le, hsub⟩

theorem mem_all_shortest_paths (s : SDNState) (src dst : String) (p : List String) :
    p ∈ all_shortest_paths s src dst ↔
      p ∈ allPaths s src dst ∧
        ∀ q ∈ allPaths s src dst, pathWeight s p ≤ pathWeight s q := by
  unfold all_shortest_paths
  rw [List.mem_filter]
  simp [List.all_eq_true]

theorem pickMin_go (L : Ledger) (ps : List (List String)) (q : List String) :
    ∃ r,
      ps.foldl
        (fun acc p =>
          match acc with
          | none => some p
          | some q' => if utilSum L p < utilSum L q' then some p else some q')
        (some q) = some r ∧
      (r = q ∨ r ∈ ps) ∧ utilSum L r ≤ utilSum L q ∧
      ∀ x ∈ ps, utilSum L r ≤ utilSum L x := by
  induction ps generalizing q with
  | nil => exact ⟨q, rfl, Or.inl rfl, le_refl _, by simp⟩
  | cons p rest ih =>
      simp only [List.foldl_cons]
      by_cases h : utilSum L p < utilSum L q
      · obtain ⟨r, hr, hmem, hle, hall⟩ := ih p
        refine ⟨r, by simpa [h] using hr, ?_, le_trans hle (le_of_lt h), ?_⟩
        · rcases hmem with rfl | hm
          · exact Or.inr (List.mem_cons_self _ _)
          · exact Or.inr (List.mem_cons_of_mem _ hm)
        · intro x hx
          rcases List.mem_cons.mp hx with rfl | hx'
          · exact hle
          · exact hall x hx'
      · obtain ⟨r, hr, hmem, hle, hall⟩ := ih q
        refine ⟨r, by simpa [h] using hr, ?_, hle, ?_⟩
        · rcases hmem with rfl | hm
          · exact Or.inl rfl
          · exact Or.inr (List.mem_cons_of_mem _ hm)
        · intro x hx
          rcases List.mem_cons.mp hx with rfl | hx'
          · exact le_trans hle (not_lt.mp h)
          · exact hall x hx'

theorem pickMin_eq_none_iff (L : Ledger) (ps : List (List String)) :
    pickMin L ps = none ↔ ps = [] := by
  cases ps with
  | nil => simp [pickMin]
  | cons p rest =>
      simp only [pickMin, List.foldl_cons]
      obtain ⟨r, hr, -, -, -⟩ := pickMin_go L rest p
      simp [hr]

theorem pickMin_spec (L : Ledger) (ps : List (List String)) (p : List String)
    (h : pickMin L ps = some p) :
    p ∈ ps ∧ ∀ q ∈ ps, utilSum L p ≤ utilSum L q := by
  cases ps with
  | nil => exact absurd h (by simp [pickMin])
  | cons p0 rest =>
      simp only [pickMin, List.foldl_cons] at h
      obtain ⟨r, hr, hmem, hle, hall⟩ := pickMin_go L rest p0
      rw [hr] at h
      cases h
      constructor
      · rcases hmem with rfl | hm
        · exact List.mem_cons_self _ _
        · exact List.mem_cons_of_mem _ hm
      · intro q hq
        rcases List.mem_cons.mp hq with rfl | hq'
        · exact hle
        · exact hall q hq'

/-! ## Shortening a walk to a simple path -/

theorem exists_dup_decomp (l : List String) (h : ¬l.Nodup) :
    ∃ pre a mid post, l = pre ++ a :: (mid ++ a :: post) := by
  induction l with
  | nil => exact absurd List.nodup_nil h
  | cons x rest ih =>
      by_cases hx : x ∈ rest
      · obtain ⟨mid, post, rfl⟩ := List.append_of_mem hx
        exact ⟨[], x, mid, post, by simp⟩
      · have hr : ¬rest.Nodup := fun hn => h (List.nodup_cons.mpr ⟨hx, hn⟩)
        obtain ⟨pre, a, mid, post, rfl⟩ := ih hr
        exact ⟨x :: pre, a, mid, post, rfl⟩

theorem pathWeight_append (s : SDNState) (xs : List String) (a : String) (ys : List String) :
    pathWeight s (xs ++ a :: ys) = pathWeight s (xs ++ [a]) + pathWeight s (a :: ys) := by
  induction xs with
  | nil => simp [pathWeight]
  | cons x xs ih =>
      cases xs with
      | nil => simp [pathWeight]
      | cons y xs' =>
          simp only [List.cons_append, pathWeight, List.append_eq] at ih ⊢
          rw [ih, Nat.add_assoc]

theorem chainB_append (s : SDNState) (xs : List String) (a : String) (ys : List String) :
    chainB s (xs ++ a :: ys) = (chainB s (xs ++ [a]) && chainB s (a :: ys)) := by
  induction xs with
  | nil => simp [chainB]
  | cons x xs ih =>
      cases xs with
      | nil => simp [chainB, Bool.and_assoc]
      | cons y xs' =>
          simp only [List.cons_append, chainB, List.append_eq] at ih ⊢
          rw [ih, Bool.and_assoc]

theorem head?_append_cons (xs : List String) (a : String) (ys zs : List String) :
    (xs ++ a :: ys).head? = (xs ++ a :: zs).head? := by
  cases xs <;> simp

theorem isWalk_splice (s : SDNState) (src dst : String) (pre : List String) (a : String)
    (mid post : List String) (h : isWalk s (pre ++ a :: (mid ++ a :: post)) src dst) :
    isWalk s (pre ++ a :: post) src dst ∧
      pathWeight s (pre ++ a :: post) ≤ pathWeight s (pre ++ a :: (mid ++ a :: post)) := by
  rw [isWalk_iff] at h
  obtain ⟨hhead, hlast, hchain, hmem⟩ := h
  have hchain' : chainB s (pre ++ [a]) = true ∧ chainB s (a :: (mid ++ a :: post)) = true := by
    have := chainB_append s pre a (mid ++ a :: post)
    rw [this, Bool.and_eq_true] at hchain
    exact hchain
  have hsplit : a :: (mid ++ a :: post) = (a :: mid) ++ a :: post := by simp
  have hchain2 : chainB s (a :: post) = true := by
    have h2 := hchain'.2
    rw [hsplit, chainB_append s (a :: mid) a post, Bool.and_eq_true] at h2
    exact h2.2
  constructor
  · rw [isWalk_iff]
    refine ⟨?_, ?_, ?_, ?_⟩
    · rw [← hhead]
      exact (head?_append_cons pre a post (mid ++ a :: post)).symm ▸ rfl
    · rw [List.getLast?_append_cons, ← hlast, List.getLast?_append_cons,
        hsplit, List.getLast?_append_cons]
    · rw [chainB_append, Bool.and_eq_true]
      exact ⟨hchain'.1, hchain2⟩
    · intro x hx
      apply hmem
      rcases List.mem_append.mp hx with h1 | h2
      · exact List.mem_append.mpr (Or.inl h1)
      · rcases List.mem_cons.mp h2 with rfl | h3
        · exact List.mem_append.mpr (Or.inr (List.mem_cons_self _ _))
        · refine List.mem_append.mpr (Or.inr ?_)
          refine List.mem_cons_of_mem _ ?_
          exact List.mem_append.mpr (Or.inr (List.mem_cons_of_mem _ h3))
  · rw [pathWeight_append s pre a post, pathWeight_append s pre a (mid ++ a :: post)]
    refine Nat.add_le_add_left ?_ _
    rw [show a :: (mid ++ a :: post) = (a :: mid) ++ a :: post from by simp,
      pathWeight_append s (a :: mid) a post]
    exact Nat.le_add_left _ _

theorem isWalk_to_simple (s : SDNState) (src dst : String) :
    ∀ (n : Nat) (p : List String), p.length ≤ n → isWalk s p src dst →
      ∃ q, q.Nodup ∧ isWalk s q src dst ∧ pathWeight s q ≤ pathWeight s p := by
  intro n
  induction n with
  | zero =>
      intro p hlen hw
      interval_cases hp : p.length
      · rw [List.length_eq_zero] at hp
        subst hp
        rw [isWalk_iff] at hw
        simp at hw
  | succ n ih =>
      intro p hlen hw
      by_cases hnd : p.Nodup
      · exact ⟨p, hnd, hw, le_refl _⟩
      · obtain ⟨pre, a, mid, post, rfl⟩ := exists_dup_decomp p hnd
        obtain ⟨hw', hle'⟩ := isWalk_splice s src dst pre a mid post hw
        have hlen' : (pre ++ a :: post).length ≤ n := by
          have h1 : (pre ++ a :: (mid ++ a :: post)).length =
              pre.length + mid.length + post.length + 2 := by simp; omega
          have h2 : (pre ++ a :: post).length = pre.length + post.length + 1 := by simp; omega
          omega
        obtain ⟨q, hq1, hq2, hq3⟩ := ih (pre ++ a :: post) hlen' hw'
        exact ⟨q, hq1, hq2, le_trans hq3 hle'⟩

theorem exists_min_weight (s : SDNState) (ps : List (List String)) (hne : ps ≠ []) :
    ∃ p ∈ ps, ∀ q ∈ ps, pathWeight s p ≤ pathWeight s q := by
  induction ps with
  | nil => exact absurd rfl hne
  | cons p rest ih =>
      cases rest with
      | nil => exact ⟨p, by simp, by simp⟩
      | cons r rest' =>
          obtain ⟨m, hm, hmin⟩ := ih (by simp)
          by_cases h : pathWeight s p ≤ pathWeight s m
          · refine ⟨p, by simp, ?_⟩
            intro q hq
            rcases List.mem_cons.mp hq with rfl | hq'
            · exact le_refl _
            · exact le_trans h (hmin q hq')
          · refine ⟨m, List.mem_cons_of_mem _ hm, ?_⟩
            intro q hq
            rcases List.mem_cons.mp hq with rfl | hq'
            · exact le_of_lt (not_le.mp h)
            · exact hmin q hq'

theorem all_shortest_paths_eq_nil_iff (s : SDNState) (src dst : String) :
    all_shortest_paths s src dst = [] ↔ allPaths s src dst = [] := by
  constructor
  · intro h
    by_contra hne
    obtain ⟨p, hp, hmin⟩ := exists_min_weight s (allPaths s src dst) hne
    have hmem : p ∈ all_shortest_paths s src dst :=
      (mem_all_shortest_paths s src dst p).mpr ⟨hp, hmin⟩
    rw [h] at hmem
    exact absurd hmem (List.not_mem_nil p)
  · intro h
    unfold all_shortest_paths
    rw [h]
    rfl

theorem exists_walk_iff_allPaths_ne_nil (s : SDNState) (src dst : String) :
    (∃ p, isWalk s p src dst) ↔ allPaths s src dst ≠ [] := by
  constructor
  · rintro ⟨p, hp⟩
    obtain ⟨q, hq1, hq2, -⟩ := isWalk_to_simple s src dst p.length p (le_refl _) hp
    intro h
    have hmem : q ∈ allPaths s src dst := (mem_allPaths s src dst q).mpr ⟨hq1, hq2⟩
    rw [h] at hmem
    exact absurd hmem (List.not_mem_nil q)
  · intro hne
    obtain ⟨p, hp⟩ := List.exists_mem_of_ne_nil _ hne
    exact ⟨p, ((mem_allPaths s src dst p).mp hp).2⟩

/-- **C1.** For every topology, ledger state, and node pair `(src, dst)`,
`compute_path` (the Path Selector) returns a path that has minimum total edge
weight among all `src`-`dst` paths and, among all such minimum-weight paths,
minimizes the sum over its consecutive directed edges of the current
Utilization Ledger values; it returns the no-route failure (`None`) exactly
when `src` or `dst` is absent from the topology or `dst` is unreachable from
`src` (no walk joins them). -/
theorem claim_C1_compute_path_optimal (s : SDNState) (src dst traffic_type : String) :
    (compute_path s src dst traffic_type = none ↔
      (hasNode s src = false ∨ hasNode s dst = false ∨ ¬∃ p, isWalk s p src dst)) ∧
    ∀ p, compute_path s src dst traffic_type = some p →
      isWalk s p src dst ∧ p.Nodup ∧
      (∀ q, isWalk s q src dst → pathWeight s p ≤ pathWeight s q) ∧
      (∀ q, isWalk s q src dst → q.Nodup → pathWeight s q = pathWeight s p →
        utilSum s.link_utilization p ≤ utilSum s.link_utilization q) := by
  unfold compute_path
  by_cases hg : hasNode s src && hasNode s dst
  · rw [if_pos hg]
    rw [Bool.and_eq_true] at hg
    constructor
    · rw [pickMin_eq_none_iff, all_shortest_paths_eq_nil_iff]
      constructor
      · intro h
        refine Or.inr (Or.inr ?_)
        rw [exists_walk_iff_allPaths_ne_nil]
        simpa using h
      · rintro (h | h | h)
        · rw [hg.1] at h; cases h
        · rw [hg.2] at h; cases h
        · rw [exists_walk_iff_allPaths_ne_nil] at h
          simpa using h
    · intro p hp
      obtain ⟨hmem, hutil⟩ := pickMin_spec _ _ _ hp
      obtain ⟨hall, hwmin⟩ := (mem_all_shortest_paths s src dst p).mp hmem
      obtain ⟨hnd, hwalk⟩ := (mem_allPaths s src dst p).mp hall
      refine ⟨hwalk, hnd, ?_, ?_⟩
      · intro q hq
        obtain ⟨q', hq'1, hq'2, hq'3⟩ :=
          isWalk_to_simple s src dst q.length q (le_refl _) hq
        have : q' ∈ allPaths s src dst := (mem_allPaths s src dst q').mpr ⟨hq'1, hq'2⟩
        exact le_trans (hwmin q' this) hq'3
      · intro q hq hqnd hqw
        have hqall : q ∈ allPaths s src dst := (mem_allPaths s src dst q).mpr ⟨hqnd, hq⟩
        have hqshort : q ∈ all_shortest_paths s src dst := by
          rw [mem_all_shortest_paths]
          refine ⟨hqall, ?_⟩
          intro r hr
          rw [hqw]
          exact hwmin r hr
        exact hutil q hqshort
  · rw [if_neg hg]
    rw [Bool.and_eq_true, not_and_or] at hg
    constructor
    · constructor
      · intro _
        rcases hg with h | h
        · exact Or.inl (by simpa using h)
        · exact Or.inr (Or.inl (by simpa using h))
      · intro _
        rfl
    · intro p hp
      cases hp

/-! ## Consecutive pairs of a path, and the increment / decrement loops -/

/-- The consecutive ordered pairs `(p[i], p[i+1])` of a path. -/
def pairsOf : List String → List (String × String)
  | a :: b :: rest => (a, b) :: pairsOf (b :: rest)
  | _ => []

theorem mem_of_mem_pairsOf (p : List String) (pr : String × String) (h : pr ∈ pairsOf p) :
    pr.1 ∈ p ∧ pr.2 ∈ p := by
  induction p with
  | nil => cases h
  | cons x rest ih =>
      cases rest with
      | nil => cases h
      | cons y rest' =>
          rcases List.mem_cons.mp h with heq | hmem
          · subst heq
            exact ⟨by simp, by simp⟩
          · obtain ⟨ha, hb⟩ := ih hmem
            exact ⟨List.mem_cons_of_mem _ ha, List.mem_cons_of_mem _ hb⟩

theorem incPath_unchanged (p : List String) :
    ∀ (L L' : Ledger) (bw : Int) (k : String × String),
      incPath L p bw = some L' →
      (∀ pr ∈ pairsOf p, pr ≠ k ∧ (pr.2, pr.1) ≠ k) →
      lookupL L' k = lookupL L k := by
  induction p with
  | nil => intro L L' bw k h _; cases h; rfl
  | cons x rest ih =>
      cases rest with
      | nil => intro L L' bw k h _; cases h; rfl
      | cons y rest' =>
          intro L L' bw k h hk
          cases h1 : incKey L (x, y) bw with
          | none => simp only [incPath, h1] at h; cases h
          | some L1 =>
              cases h2 : incKey L1 (y, x) bw with
              | none => simp only [incPath, h1, h2] at h; cases h
              | some L2 =>
                  simp only [incPath, h1, h2] at h
                  have hxy : (x, y) ∈ pairsOf (x :: y :: rest') := by simp [pairsOf]
                  obtain ⟨hne1, hne2⟩ := hk (x, y) hxy
                  have e1 : lookupL L1 k = lookupL L k :=
                    incKey_lookup_ne L L1 (x, y) k bw h1 (Ne.symm hne1)
                  have e2 : lookupL L2 k = lookupL L1 k :=
                    incKey_lookup_ne L1 L2 (y, x) k bw h2 (Ne.symm hne2)
                  have e3 : lookupL L' k = lookupL L2 k := by
                    refine ih L2 L' bw k h ?_
                    intro pr hpr
                    exact hk pr (List.mem_cons_of_mem _ hpr)
                  rw [e3, e2, e1]

theorem incPath_memKey (p : List String) :
    ∀ (L L' : Ledger) (bw : Int) (k : String × String),
      incPath L p bw = some L' → memKey L' k = memKey L k := by
  induction p with
  | nil => intro L L' bw k h; cases h; rfl
  | cons x rest ih =>
      cases rest with
      | nil => intro L L' bw k h; cases h; rfl
      | cons y rest' =>
          intro L L' bw k h
          cases h1 : incKey L (x, y) bw with
          | none => simp only [incPath, h1] at h; cases h
          | some L1 =>
              cases h2 : incKey L1 (y, x) bw with
              | none => simp only [incPath, h1, h2] at h; cases h
              | some L2 =>
                  simp only [incPath, h1, h2] at h
                  rw [ih L2 L' bw k h, incKey_memKey L1 L2 (y, x) k bw h2,
                    incKey_memKey L L1 (x, y) k bw h1]

theorem incPath_some_of_keys (p : List String) :
    ∀ (L : Ledger) (bw : Int),
      (∀ pr ∈ pairsOf p, memKey L pr = true ∧ memKey L (pr.2, pr.1) = true) →
      ∃ L', incPath L p bw = some L' := by
  induction p with
  | nil => intro L bw _; exact ⟨L, rfl⟩
  | cons x rest ih =>
      cases rest with
      | nil => intro L bw _; exact ⟨L, rfl⟩
      | cons y rest' =>
          intro L bw hkeys
          have hxy : (x, y) ∈ pairsOf (x :: y :: rest') := by simp [pairsOf]
          obtain ⟨hk1, hk2⟩ := hkeys (x, y) hxy
          obtain ⟨L1, h1⟩ := (incKey_eq_some_iff L (x, y) bw).mpr hk1
          have hk2' : memKey L1 (y, x) = true := by
            rw [incKey_memKey L L1 (x, y) (y, x) bw h1]
            exact hk2
          obtain ⟨L2, h2⟩ := (incKey_eq_some_iff L1 (y, x) bw).mpr hk2'
          have hkeys' : ∀ pr ∈ pairsOf (y :: rest'),
              memKey L2 pr = true ∧ memKey L2 (pr.2, pr.1) = true := by
            intro pr hpr
            rw [incKey_memKey L1 L2 (y, x) pr bw h2, incKey_memKey L L1 (x, y) pr bw h1,
              incKey_memKey L1 L2 (y, x) (pr.2, pr.1) bw h2,
              incKey_memKey L L1 (x, y) (pr.2, pr.1) bw h1]
            exact hkeys pr (List.mem_cons_of_mem _ hpr)
          obtain ⟨L', hrec⟩ := ih L2 bw hkeys'
          exact ⟨L', by simp only [incPath, h1, h2]; exact hrec⟩

theorem incPath_lookup_pair (p : List String) :
    ∀ (L L' : Ledger) (bw : Int), p.Nodup → incPath L p bw = some L' →
      ∀ a b, (a, b) ∈ pairsOf p →
        lookupL L' (a, b) = (lookupL L (a, b)).map (fun x => x + bw) ∧
        lookupL L' (b, a) = (lookupL L (b, a)).map (fun x => x + bw) := by
  induction p with
  | nil => intro L L' bw _ h a b hab; cases hab
  | cons x rest ih =>
      cases rest with
      | nil => intro L L' bw _ h a b hab; cases hab
      | cons y rest' =>
          intro L L' bw hnd h a b hab
          cases h1 : incKey L (x, y) bw with
          | none => simp only [incPath, h1] at h; cases h
          | some L1 =>
              cases h2 : incKey L1 (y, x) bw with
              | none => simp only [incPath, h1, h2] at h; cases h
              | some L2 =>
                  simp only [incPath, h1, h2] at h
                  have hxnotin : x ∉ y :: rest' := (List.nodup_cons.mp hnd).1
                  have hxy : x ≠ y := fun hc => hxnotin (hc ▸ List.mem_cons_self y rest')
                  rcases List.mem_cons.mp hab with heq | hmem
                  · have hax : a = x := congrArg Prod.fst heq
                    have hby : b = y := congrArg Prod.snd heq
                    subst hax; subst hby
                    have nerev : (b, a) ≠ (a, b) := by
                      intro hc
                      exact hxy (congrArg Prod.snd hc)
                    have e1 : lookupL L1 (a, b) = (lookupL L (a, b)).map (fun z => z + bw) :=
                      incKey_lookup_self L L1 (a, b) bw h1
                    have e1' : lookupL L1 (b, a) = lookupL L (b, a) :=
                      incKey_lookup_ne L L1 (a, b) (b, a) bw h1 nerev
                    have e2 : lookupL L2 (b, a) = (lookupL L1 (b, a)).map (fun z => z + bw) :=
                      incKey_lookup_self L1 L2 (b, a) bw h2
                    have e2' : lookupL L2 (a, b) = lookupL L1 (a, b) :=
                      incKey_lookup_ne L1 L2 (b, a) (a, b) bw h2 (Ne.symm nerev)
                    have hcond : ∀ kk : String × String, kk.1 = a →
                        ∀ pr ∈ pairsOf (b :: rest'), pr ≠ kk ∧ (pr.2, pr.1) ≠ kk := by
                      intro kk hkk pr hpr
                      obtain ⟨hm1, hm2⟩ := mem_of_mem_pairsOf _ pr hpr
                      constructor
                      · intro hc
                        rw [hc, hkk] at hm1
                        exact hxnotin hm1
                      · intro hc
                        have : pr.2 = kk.1 := congrArg Prod.fst hc
                        rw [this, hkk] at hm2
                        exact hxnotin hm2
                    have e3 : lookupL L' (a, b) = lookupL L2 (a, b) :=
                      incPath_unchanged (b :: rest') L2 L' bw (a, b) h (hcond (a, b) rfl)
                    have e3' : lookupL L' (b, a) = lookupL L2 (b, a) := by
                      refine incPath_unchanged (b :: rest') L2 L' bw (b, a) h ?_
                      intro pr hpr
                      obtain ⟨hm1, hm2⟩ := mem_of_mem_pairsOf _ pr hpr
                      constructor
                      · intro hc
                        have : pr.2 = a := congrArg Prod.snd hc
                        rw [this] at hm2
                        exact hxnotin hm2
                      · intro hc
                        have : pr.1 = a := congrArg Prod.snd hc
                        rw [this] at hm1
                        exact hxnotin hm1
                    exact ⟨by rw [e3, e2', e1], by rw [e3', e2, e1']⟩
                  · obtain ⟨hm1, hm2⟩ := mem_of_mem_pairsOf _ (a, b) hmem
                    have hax : a ≠ x := fun hc => hxnotin (hc ▸ hm1)
                    have hbx : b ≠ x := fun hc => hxnotin (hc ▸ hm2)
                    have ne1 : (a, b) ≠ (x, y) := fun hc => hax (congrArg Prod.fst hc)
                    have ne2 : (a, b) ≠ (y, x) := fun hc => hbx (congrArg Prod.snd hc)
                    have ne3 : (b, a) ≠ (x, y) := fun hc => hbx (congrArg Prod.fst hc)
                    have ne4 : (b, a) ≠ (y, x) := fun hc => hax (congrArg Prod.snd hc)
                    have f1 : lookupL L1 (a, b) = lookupL L (a, b) :=
                      incKey_lookup_ne L L1 (x, y) (a, b) bw h1 ne1
                    have f2 : lookupL L2 (a, b) = lookupL L1 (a, b) :=
                      incKey_lookup_ne L1 L2 (y, x) (a, b) bw h2 ne2
                    have f3 : lookupL L1 (b, a) = lookupL L (b, a) :=
                      incKey_lookup_ne L L1 (x, y) (b, a) bw h1 ne3
                    have f4 : lookupL L2 (b, a) = lookupL L1 (b, a) :=
                      incKey_lookup_ne L1 L2 (y, x) (b, a) bw h2 ne4
                    obtain ⟨g1, g2⟩ :=
                      ih L2 L' bw (List.nodup_cons.mp hnd).2 h a b hmem
                    exact ⟨by rw [g1, f2, f1], by rw [g2, f4, f3]⟩

theorem decPath_unchanged (p : List String) :
    ∀ (L : Ledger) (bw : Int) (k : String × String),
      (∀ pr ∈ pairsOf p, pr ≠ k ∧ (pr.2, pr.1) ≠ k) →
      lookupL (decPath L p bw) k = lookupL L k := by
  induction p with
  | nil => intro L bw k _; rfl
  | cons x rest ih =>
      cases rest with
      | nil => intro L bw k _; rfl
      | cons y rest' =>
          intro L bw k hk
          have hxy : (x, y) ∈ pairsOf (x :: y :: rest') := by simp [pairsOf]
          obtain ⟨hne1, hne2⟩ := hk (x, y) hxy
          simp only [decPath]
          rw [ih _ bw k (fun pr hpr => hk pr (List.mem_cons_of_mem _ hpr)),
            lookupL_decKeyIfPresent_ne _ _ _ _ (Ne.symm hne2),
            lookupL_decKeyIfPresent_ne _ _ _ _ (Ne.symm hne1)]

theorem decPath_memKey (p : List String) :
    ∀ (L : Ledger) (bw : Int) (k : String × String),
      memKey (decPath L p bw) k = memKey L k := by
  induction p with
  | nil => intro L bw k; rfl
  | cons x rest ih =>
      cases rest with
      | nil => intro L bw k; rfl
      | cons y rest' =>
          intro L bw k
          simp only [decPath]
          rw [ih _ bw k, decKeyIfPresent_memKey, decKeyIfPresent_memKey]

theorem decPath_lookup_pair (p : List String) :
    ∀ (L : Ledger) (bw : Int), p.Nodup →
      ∀ a b, (a, b) ∈ pairsOf p →
        lookupL (decPath L p bw) (a, b) = (lookupL L (a, b)).map (fun x => x - bw) ∧
        lookupL (decPath L p bw) (b, a) = (lookupL L (b, a)).map (fun x => x - bw) := by
  induction p with
  | nil => intro L bw _ a b hab; cases hab
  | cons x rest ih =>
      cases rest with
      | nil => intro L bw _ a b hab; cases hab
      | cons y rest' =>
          intro L bw hnd a b hab
          have hxnotin : x ∉ y :: rest' := (List.nodup_cons.mp hnd).1
          have hxy : x ≠ y := fun hc => hxnotin (hc ▸ List.mem_cons_self y rest')
          simp only [decPath]
          rcases List.mem_cons.mp hab with heq | hmem
          · have hax : a = x := congrArg Prod.fst heq
            have hby : b = y := congrArg Prod.snd heq
            subst hax; subst hby
            have nerev : (b, a) ≠ (a, b) := fun hc => hxy (congrArg Prod.snd hc)
            have e1 : lookupL (decKeyIfPresent L (a, b) bw) (a, b) =
                (lookupL L (a, b)).map (fun z => z - bw) :=
              lookupL_decKeyIfPresent_self L (a, b) bw
            have e1' : lookupL (decKeyIfPresent L (a, b) bw) (b, a) = lookupL L (b, a) :=
              lookupL_decKeyIfPresent_ne L (a, b) (b, a) bw nerev
            have e2 : lookupL (decKeyIfPresent (decKeyIfPresent L (a, b) bw) (b, a) bw) (b, a) =
                (lookupL (decKeyIfPresent L (a, b) bw) (b, a)).map (fun z => z - bw) :=
              lookupL_decKeyIfPresent_self _ (b, a) bw
            have e2' : lookupL (decKeyIfPresent (decKeyIfPresent L (a, b) bw) (b, a) bw) (a, b) =
                lookupL (decKeyIfPresent L (a, b) bw) (a, b) :=
              lookupL_decKeyIfPresent_ne _ (b, a) (a, b) bw (Ne.symm nerev)
            have hcond1 : ∀ pr ∈ pairsOf (b :: rest'), pr ≠ (a, b) ∧ (pr.2, pr.1) ≠ (a, b) := by
              intro pr hpr
              obtain ⟨hm1, hm2⟩ := mem_of_mem_pairsOf _ pr hpr
              constructor
              · intro hc
                have : pr.1 = a := congrArg Prod.fst hc
                rw [this] at hm1
                exact hxnotin hm1
              · intro hc
                have : pr.2 = a := congrArg Prod.fst hc
                rw [this] at hm2
                exact hxnotin hm2
            have hcond2 : ∀ pr ∈ pairsOf (b :: rest'), pr ≠ (b, a) ∧ (pr.2, pr.1) ≠ (b, a) := by
              intro pr hpr
              obtain ⟨hm1, hm2⟩ := mem_of_mem_pairsOf _ pr hpr
              constructor
              · intro hc
                have : pr.2 = a := congrArg Prod.snd hc
                rw [this] at hm2
                exact hxnotin hm2
              · intro hc
                have : pr.1 = a := congrArg Prod.snd hc
                rw [this] at hm1
                exact hxnotin hm1
            constructor
            · rw [decPath_unchanged (b :: rest') _ bw (a, b) hcond1, e2', e1]
            · rw [decPath_unchanged (b :: rest') _ bw (b, a) hcond2, e2, e1']
          · obtain ⟨hm1, hm2⟩ := mem_of_mem_pairsOf _ (a, b) hmem
            have hax : a ≠ x := fun hc => hxnotin (hc ▸ hm1)
            have hbx : b ≠ x := fun hc => hxnotin (hc ▸ hm2)
            have ne1 : (a, b) ≠ (x, y) := fun hc => hax (congrArg Prod.fst hc)
            have ne2 : (a, b) ≠ (y, x) := fun hc => hbx (congrArg Prod.snd hc)
            have ne3 : (b, a) ≠ (x, y) := fun hc => hbx (congrArg Prod.fst hc)
            have ne4 : (b, a) ≠ (y, x) := fun hc => hax (congrArg Prod.snd hc)
            obtain ⟨g1, g2⟩ :=
              ih (decKeyIfPresent (decKeyIfPresent L (x, y) bw) (y, x) bw) bw
                (List.nodup_cons.mp hnd).2 a b hmem
            constructor
            · rw [g1, lookupL_decKeyIfPresent_ne _ _ _ _ ne2,
                lookupL_decKeyIfPresent_ne _ _ _ _ ne1]
            · rw [g2, lookupL_decKeyIfPresent_ne _ _ _ _ ne4,
                lookupL_decKeyIfPresent_ne _ _ _ _ ne3]

/-! ## The ledger-key invariant -/

/-- Every topology edge has both directional ledger entries. -/
def LedgerInv (s : SDNState) : Prop :=
  ∀ u v : String, hasEdge s u v = true →
    memKey s.link_utilization (u, v) = true ∧ memKey s.link_utilization (v, u) = true

theorem pairsOf_edges (s : SDNState) (p : List String) (h : chainB s p = true) :
    ∀ pr ∈ pairsOf p, hasEdge s pr.1 pr.2 = true := by
  induction p with
  | nil => intro pr hpr; cases hpr
  | cons x rest ih =>
      cases rest with
      | nil => intro pr hpr; cases hpr
      | cons y rest' =>
          simp only [chainB, Bool.and_eq_true] at h
          intro pr hpr
          rcases List.mem_cons.mp hpr with heq | hmem
          · subst heq
            exact h.1
          · exact ih h.2 pr hmem

theorem memKey_setKey_self (L : Ledger) (k : String × String) (x : Int) :
    memKey (setKey L k x) k = true := by
  simp [memKey, lookupL_setKey_self]

theorem memKey_setKey_ne (L : Ledger) (k k' : String × String) (x : Int) (h : k' ≠ k) :
    memKey (setKey L k x) k' = memKey L k' := by
  simp [memKey, lookupL_setKey_ne L k k' x h]

theorem memKey_popKey_self (L : Ledger) (k : String × String) :
    memKey (popKey L k) k = false := by
  simp [memKey, lookupL_popKey_self]

theorem memKey_popKey_ne (L : Ledger) (k k' : String × String) (h : k' ≠ k) :
    memKey (popKey L k) k' = memKey L k' := by
  simp [memKey, lookupL_popKey_ne L k k' h]

theorem mem_eraseEdge (u v : String) (es : List (String × String × Nat))
    (e : String × String × Nat) :
    e ∈ eraseEdge u v es ↔
      e ∈ es ∧ ¬((e.1 = u ∧ e.2.1 = v) ∨ (e.1 = v ∧ e.2.1 = u)) := by
  rw [eraseEdge, List.mem_filter]
  simp only [Bool.not_eq_true', decide_eq_false_iff_not]

theorem LedgerInv_add_node (s : SDNState) (n : String) (h : LedgerInv s) : LedgerInv (add_node s n) := by
  unfold add_node
  by_cases hc : hasNode s n = true
  · rw [if_pos hc]; exact h
  · rw [if_neg hc]
    intro u v he
    exact h u v he

theorem LedgerInv_remove_node (s : SDNState) (n : String) (h : LedgerInv s) : LedgerInv (remove_node s n) := by
  unfold remove_node
  by_cases hc : (!hasNode s n) = true
  · rw [if_pos hc]; exact h
  · rw [if_neg hc]
    intro u v he
    rw [hasEdge_iff] at he
    obtain ⟨e, hmem, hmatch⟩ := he
    refine h u v ?_
    rw [hasEdge_iff]
    exact ⟨e, (List.mem_filter.mp hmem).1, hmatch⟩

theorem LedgerInv_add_link (s : SDNState) (u v : String) (w : Nat) (h : LedgerInv s) :
    LedgerInv (add_link s u v w) := by
  unfold add_link
  by_cases hc : (!hasNode s u ∨ !hasNode s v)
  · rw [if_pos hc]; exact h
  · rw [if_neg hc]
    intro a b he
    rw [hasEdge_iff] at he
    obtain ⟨e, hmem, hmatch⟩ := he
    simp only [List.mem_append, List.mem_singleton] at hmem
    rcases hmem with hold | hnew
    · rw [mem_eraseEdge] at hold
      obtain ⟨hmem', hne⟩ := hold
      have hedge : hasEdge s a b = true := by
        rw [hasEdge_iff]; exact ⟨e, hmem', hmatch⟩
      obtain ⟨hk1, hk2⟩ := h a b hedge
      have hab_ne_uv : (a, b) ≠ (u, v) := by
        intro hcq
        have ha : a = u := congrArg Prod.fst hcq
        have hb : b = v := congrArg Prod.snd hcq
        subst ha; subst hb
        exact hne hmatch
      have hab_ne_vu : (a, b) ≠ (v, u) := by
        intro hcq
        have ha : a = v := congrArg Prod.fst hcq
        have hb : b = u := congrArg Prod.snd hcq
        subst ha; subst hb
        exact hne (Or.symm hmatch)
      have hba_ne_uv : (b, a) ≠ (u, v) := by
        intro hcq
        have hb : b = u := congrArg Prod.fst hcq
        have ha : a = v := congrArg Prod.snd hcq
        subst ha; subst hb
        exact hne (Or.symm hmatch)
      have hba_ne_vu : (b, a) ≠ (v, u) := by
        intro hcq
        have hb : b = v := congrArg Prod.fst hcq
        have ha : a = u := congrArg Prod.snd hcq
        subst ha; subst hb
        exact hne hmatch
      constructor
      · rw [memKey_setKey_ne _ _ _ _ hab_ne_vu, memKey_setKey_ne _ _ _ _ hab_ne_uv]
        exact hk1
      · rw [memKey_setKey_ne _ _ _ _ hba_ne_vu, memKey_setKey_ne _ _ _ _ hba_ne_uv]
        exact hk2
    · rcases hmatch with ⟨h1, h2⟩ | ⟨h1, h2⟩
      · have ha : a = u := by rw [← h1, hnew]
        have hb : b = v := by rw [← h2, hnew]
        subst ha; subst hb
        constructor
        · by_cases huv : (a, b) = (b, a)
          · rw [huv]; exact memKey_setKey_self _ _ _
          · rw [memKey_setKey_ne _ _ _ _ huv]
            exact memKey_setKey_self _ _ _
        · exact memKey_setKey_self _ _ _
      · have ha : a = v := by rw [← h2, hnew]
        have hb : b = u := by rw [← h1, hnew]
        subst ha; subst hb
        constructor
        · exact memKey_setKey_self _ _ _
        · by_cases huv : (a, b) = (b, a)
          · rw [← huv]; exact memKey_setKey_self _ _ _
          · rw [memKey_setKey_ne _ _ _ _ (fun hq => huv hq.symm)]
            exact memKey_setKey_self _ _ _

theorem LedgerInv_remove_link (s : SDNState) (u v : String) (h : LedgerInv s) :
    LedgerInv (remove_link s u v) := by
  unfold remove_link
  by_cases hc : (!hasEdge s u v) = true
  · rw [if_pos hc]; exact h
  · rw [if_neg hc]
    intro a b he
    rw [hasEdge_iff] at he
    obtain ⟨e, hmem, hmatch⟩ := he
    rw [mem_eraseEdge] at hmem
    obtain ⟨hmem', hne⟩ := hmem
    have hedge : hasEdge s a b = true := by
      rw [hasEdge_iff]; exact ⟨e, hmem', hmatch⟩
    obtain ⟨hk1, hk2⟩ := h a b hedge
    have hab_ne_uv : (a, b) ≠ (u, v) := by
      intro hcq
      have ha : a = u := congrArg Prod.fst hcq
      have hb : b = v := congrArg Prod.snd hcq
      subst ha; subst hb
      exact hne hmatch
    have hab_ne_vu : (a, b) ≠ (v, u) := by
      intro hcq
      have ha : a = v := congrArg Prod.fst hcq
      have hb : b = u := congrArg Prod.snd hcq
      subst ha; subst hb
      exact hne (Or.symm hmatch)
    have hba_ne_uv : (b, a) ≠ (u, v) := by
      intro hcq
      have hb : b = u := congrArg Prod.fst hcq
      have ha : a = v := congrArg Prod.snd hcq
      subst ha; subst hb
      exact hne (Or.symm hmatch)
    have hba_ne_vu : (b, a) ≠ (v, u) := by
      intro hcq
      have hb : b = v := congrArg Prod.fst hcq
      have ha : a = u := congrArg Prod.snd hcq
      subst ha; subst hb
      exact hne hmatch
    constructor
    · rw [memKey_popKey_ne _ _ _ hab_ne_vu, memKey_popKey_ne _ _ _ hab_ne_uv]
      exact hk1
    · rw [memKey_popKey_ne _ _ _ hba_ne_vu, memKey_popKey_ne _ _ _ hba_ne_uv]
      exact hk2

theorem compute_path_mem_allPaths (s : SDNState) (src dst t : String) (p : List String)
    (h : compute_path s src dst t = some p) : p ∈ allPaths s src dst := by
  unfold compute_path at h
  by_cases hg : hasNode s src && hasNode s dst
  · rw [if_pos hg] at h
    exact ((mem_all_shortest_paths s src dst p).mp (pickMin_spec _ _ _ h).1).1
  · rw [if_neg hg] at h
    cases h

theorem LedgerInv_of_eqs (s s' : SDNState) (hInv : LedgerInv s) (he : s'.edges = s.edges)
    (hm : ∀ k, memKey s'.link_utilization k = memKey s.link_utilization k) :
    LedgerInv s' := by
  intro u v hedge
  rw [hm, hm]
  apply hInv
  unfold hasEdge at hedge ⊢
  rw [← he]
  exact hedge

theorem incPath_keys_of_walk (s : SDNState) (L : Ledger) (p : List String) (bw : Int)
    (hchain : chainB s p = true)
    (hInvL : ∀ u v : String, hasEdge s u v = true →
      memKey L (u, v) = true ∧ memKey L (v, u) = true) :
    ∃ L', incPath L p bw = some L' := by
  refine incPath_some_of_keys p L bw ?_
  intro pr hpr
  have hedge := pairsOf_edges s p hchain pr hpr
  obtain ⟨h1, h2⟩ := hInvL pr.1 pr.2 hedge
  exact ⟨h1, h2⟩

theorem isWalk_chainB (s : SDNState) (p : List String) (src dst : String)
    (h : isWalk s p src dst) : chainB s p = true :=
  ((isWalk_iff s p src dst).mp h).2.2.1

theorem inject_some (s : SDNState) (src dst t : String) (bw : Int) (hInv : LedgerInv s) :
    ∃ s' res, inject_traffic_flow s src dst t bw = some (s', res) ∧
      s'.nodes = s.nodes ∧ s'.edges = s.edges ∧
      (∀ k, memKey s'.link_utilization k = memKey s.link_utilization k) := by
  unfold inject_traffic_flow
  by_cases hg : (!hasNode s src ∨ !hasNode s dst)
  · rw [if_pos hg]
    exact ⟨s, none, rfl, rfl, rfl, fun k => rfl⟩
  · rw [if_neg hg]
    cases hcp : compute_path s src dst t with
    | none => exact ⟨s, none, rfl, rfl, rfl, fun k => rfl⟩
    | some p =>
        have hmem := compute_path_mem_allPaths s src dst t p hcp
        obtain ⟨hnd, hwalk⟩ := (mem_allPaths s src dst p).mp hmem
        have hchain := isWalk_chainB s p src dst hwalk
        obtain ⟨L', hL'⟩ :=
          incPath_keys_of_walk s s.link_utilization p bw hchain (fun u v he => hInv u v he)
        refine ⟨{ s with flows := s.flows ++ [⟨src, dst, t, bw, p⟩], link_utilization := L' },
          some p, ?_, rfl, rfl, ?_⟩
        · simp only [hL']
        · intro k
          exact incPath_memKey p s.link_utilization L' bw k hL'

theorem processFlow_some (u v : String) (s : SDNState) (f : TrafficFlow)
    (hInv : LedgerInv s) :
    ∃ s1 f', processFlow u v s f = some (s1, f') ∧
      s1.nodes = s.nodes ∧ s1.edges = s.edges ∧ s1.flows = s.flows ∧
      (∀ k, memKey s1.link_utilization k = memKey s.link_utilization k) := by
  unfold processFlow
  by_cases hb : (memB u f.path && memB v f.path) = true
  · rw [if_pos hb]
    have hmemL1 : ∀ k, memKey (decPath s.link_utilization f.path f.bandwidth) k =
        memKey s.link_utilization k :=
      fun k => decPath_memKey f.path s.link_utilization f.bandwidth k
    set s' : SDNState := { s with
      link_utilization := decPath s.link_utilization f.path f.bandwidth } with hs'
    have hInv' : LedgerInv s' := LedgerInv_of_eqs s s' hInv rfl hmemL1
    cases hcp : compute_path s' f.src f.dst f.traffic_type with
    | none =>
        exact ⟨s', f, rfl, rfl, rfl, rfl, hmemL1⟩
    | some np =>
        have hmem := compute_path_mem_allPaths s' f.src f.dst f.traffic_type np hcp
        obtain ⟨hnd, hwalk⟩ := (mem_allPaths s' f.src f.dst np).mp hmem
        have hchain := isWalk_chainB s' np f.src f.dst hwalk
        obtain ⟨L2, hL2⟩ :=
          incPath_keys_of_walk s' s'.link_utilization np f.bandwidth hchain
            (fun a b he => hInv' a b he)
        have hL2' : incPath (decPath s.link_utilization f.path f.bandwidth) np f.bandwidth =
            some L2 := hL2
        refine ⟨{ s with link_utilization := L2 }, { f with path := np }, ?_, rfl, rfl, rfl, ?_⟩
        · simp only [hL2']
        · intro k
          rw [incPath_memKey np s'.link_utilization L2 f.bandwidth k hL2]
          exact hmemL1 k
  · rw [if_neg hb]
    exact ⟨s, f, rfl, rfl, rfl, rfl, fun k => rfl⟩

theorem processFlows_some (u v : String) (fs : List TrafficFlow) :
    ∀ s : SDNState, LedgerInv s →
      ∃ s1 fs', processFlows u v s fs = some (s1, fs') ∧
        s1.nodes = s.nodes ∧ s1.edges = s.edges ∧ s1.flows = s.flows ∧
        (∀ k, memKey s1.link_utilization k = memKey s.link_utilization k) ∧
        fs'.length = fs.length := by
  induction fs with
  | nil =>
      intro s hInv
      exact ⟨s, [], rfl, rfl, rfl, rfl, fun k => rfl, rfl⟩
  | cons f fs ih =>
      intro s hInv
      obtain ⟨s1, f', hpf, hn1, he1, hf1, hm1⟩ := processFlow_some u v s f hInv
      have hInv1 : LedgerInv s1 := LedgerInv_of_eqs s s1 hInv he1 hm1
      obtain ⟨s2, fs', hpfs, hn2, he2, hf2, hm2, hlen⟩ := ih s1 hInv1
      refine ⟨s2, f' :: fs', ?_, hn2.trans hn1, he2.trans he1, hf2.trans hf1, ?_, by simp [hlen]⟩
      · simp only [processFlows, hpf, hpfs]
      · intro k
        rw [hm2 k, hm1 k]

theorem simulate_some (s : SDNState) (u v : String) (hInv : LedgerInv s) :
    ∃ s', simulate_link_failure s u v = some s' ∧ LedgerInv s' := by
  unfold simulate_link_failure
  by_cases hc : (!hasEdge s u v) = true
  · rw [if_pos hc]
    exact ⟨s, rfl, hInv⟩
  · rw [if_neg hc]
    have hInv0 : LedgerInv (remove_link s u v) := LedgerInv_remove_link s u v hInv
    obtain ⟨s1, fs', hpfs, hn, he, hf, hm, hlen⟩ :=
      processFlows_some u v (remove_link s u v).flows (remove_link s u v) hInv0
    refine ⟨{ s1 with flows := fs' }, ?_, ?_⟩
    · simp only [hpfs]
    · have hInv1 : LedgerInv s1 := LedgerInv_of_eqs _ s1 hInv0 he hm
      intro a b hedge
      exact hInv1 a b hedge

theorem applyOp_some (s : SDNState) (op : Op) (hInv : LedgerInv s) :
    ∃ s', applyOp s op = some s' ∧ LedgerInv s' := by
  cases op with
  | addNode n => exact ⟨_, rfl, LedgerInv_add_node s n hInv⟩
  | removeNode n => exact ⟨_, rfl, LedgerInv_remove_node s n hInv⟩
  | addLink u v w => exact ⟨_, rfl, LedgerInv_add_link s u v w hInv⟩
  | removeLink u v => exact ⟨_, rfl, LedgerInv_remove_link s u v hInv⟩
  | injectFlow src dst t bw =>
      obtain ⟨s', res, hinj, hn, he, hm⟩ := inject_some s src dst t bw hInv
      exact ⟨s', by simp [applyOp, hinj], LedgerInv_of_eqs s s' hInv he hm⟩
  | failLink u v =>
      obtain ⟨s', hsim, hInv'⟩ := simulate_some s u v hInv
      exact ⟨s', by simp [applyOp, hsim], hInv'⟩
  | queryRoute src dst => exact ⟨s, rfl, hInv⟩

theorem runList_LedgerInv (ops : List Op) :
    ∀ s : SDNState, LedgerInv s → ∃ s', runList s ops = some s' ∧ LedgerInv s' := by
  induction ops with
  | nil => intro s hInv; exact ⟨s, rfl, hInv⟩
  | cons op ops ih =>
      intro s hInv
      obtain ⟨s1, hop, hInv1⟩ := applyOp_some s op hInv
      obtain ⟨s', hrun, hInv'⟩ := ih s1 hInv1
      exact ⟨s', by simp only [runList, hop, hrun], hInv'⟩

theorem LedgerInv_initState : LedgerInv initState := by
  intro u v h
  simp [hasEdge, findEdge, initState] at h

/-! ## Claim theorems: C9, C5, C8, C10, C3 -/

/-- **C9.** In every reachable controller state, every edge `{u, v}` of the
Topology Store has both directional ledger entries `(u, v)` and `(v, u)`;
consequently every command sequence runs without the unguarded dictionary
increments of admission and reroute ever hitting a missing key (`runList`
never returns `none`). -/
theorem claim_C9_reachable_ledger_covers_edges (ops : List Op) :
    ∃ s, runList initState ops = some s ∧
      ∀ u v : String, hasEdge s u v = true →
        memKey s.link_utilization (u, v) = true ∧
        memKey s.link_utilization (v, u) = true := by
  obtain ⟨s, hrun, hInv⟩ := runList_LedgerInv ops initState LedgerInv_initState
  exact ⟨s, hrun, fun u v he => hInv u v he⟩

/-- **C5.** If `inject_traffic_flow` fails — endpoint absent or the Path
Selector finds no route — no flow record is created and the whole state
(flow set, Utilization Ledger, Topology Store) is returned unchanged. -/
theorem claim_C5_inject_failure_leaves_state (s : SDNState) (src dst t : String) (bw : Int)
    (h : hasNode s src = false ∨ hasNode s dst = false ∨ compute_path s src dst t = none) :
    inject_traffic_flow s src dst t bw = some (s, none) := by
  unfold inject_traffic_flow
  by_cases hg : (!hasNode s src ∨ !hasNode s dst)
  · rw [if_pos hg]
  · rw [if_neg hg]
    have hcp : compute_path s src dst t = none := by
      rcases h with h1 | h2 | h3
      · exact absurd (Or.inl (by simp [h1])) hg
      · exact absurd (Or.inr (by simp [h2])) hg
      · exact h3
    rw [hcp]

theorem claim_C5_witness :
    (hasNode initState "a" = false ∨ hasNode initState "b" = false ∨
      compute_path initState "a" "b" "data" = none) ∧
    inject_traffic_flow initState "a" "b" "data" 5 = some (initState, none) :=
  ⟨by decide, claim_C5_inject_failure_leaves_state initState "a" "b" "data" 5 (by decide)⟩

theorem remove_link_nodes (s : SDNState) (u v : String) :
    (remove_link s u v).nodes = s.nodes := by
  unfold remove_link
  split <;> rfl

theorem add_link_lookup (s : SDNState) (u v : String) (w : Nat)
    (hu : hasNode s u = true) (hv : hasNode s v = true) :
    lookupL (add_link s u v w).link_utilization (u, v) = some 0 ∧
    lookupL (add_link s u v w).link_utilization (v, u) = some 0 := by
  unfold add_link
  rw [if_neg (by simp [hu, hv])]
  constructor
  · by_cases huv : u = v
    · subst huv
      simp [lookupL_setKey_self]
    · have hne : (u, v) ≠ (v, u) := fun hc => huv (congrArg Prod.fst hc)
      rw [lookupL_setKey_ne _ _ _ _ hne, lookupL_setKey_self]
  · exact lookupL_setKey_self _ _ _

/-- **C8.** `RemoveLink(u,v)` followed by `AddLink(u,v,w)` — and likewise
`AddLink(u,v,w)` alone — performed on existing nodes leaves both directional
ledger entries `(u,v)` and `(v,u)` equal to `0`, regardless of any utilization
previously accumulated for that link. -/
theorem claim_C8_remove_add_link_resets_ledger (s : SDNState) (u v : String) (w : Nat)
    (hu : hasNode s u = true) (hv : hasNode s v = true) :
    lookupL (add_link (remove_link s u v) u v w).link_utilization (u, v) = some 0 ∧
    lookupL (add_link (remove_link s u v) u v w).link_utilization (v, u) = some 0 ∧
    lookupL (add_link s u v w).link_utilization (u, v) = some 0 ∧
    lookupL (add_link s u v w).link_utilization (v, u) = some 0 := by
  have hu' : hasNode (remove_link s u v) u = true := by
    unfold hasNode
    rw [remove_link_nodes]
    exact hu
  have hv' : hasNode (remove_link s u v) v = true := by
    unfold hasNode
    rw [remove_link_nodes]
    exact hv
  obtain ⟨h1, h2⟩ := add_link_lookup (remove_link s u v) u v w hu' hv'
  obtain ⟨h3, h4⟩ := add_link_lookup s u v w hu hv
  exact ⟨h1, h2, h3, h4⟩

theorem claim_C8_witness :
    (hasNode (runD [.addNode "a", .addNode "b", .addLink "a" "b" 1,
        .injectFlow "a" "b" "data" 9]) "a" = true ∧
      hasNode (runD [.addNode "a", .addNode "b", .addLink "a" "b" 1,
        .injectFlow "a" "b" "data" 9]) "b" = true) ∧
    (lookupL (add_link (remove_link (runD [.addNode "a", .addNode "b", .addLink "a" "b" 1,
        .injectFlow "a" "b" "data" 9]) "a" "b") "a" "b" 2).link_utilization
        ("a", "b") = some 0 ∧
      lookupL (add_link (remove_link (runD [.addNode "a", .addNode "b", .addLink "a" "b" 1,
        .injectFlow "a" "b" "data" 9]) "a" "b") "a" "b" 2).link_utilization
        ("b", "a") = some 0 ∧
      lookupL (add_link (runD [.addNode "a", .addNode "b", .addLink "a" "b" 1,
        .injectFlow "a" "b" "data" 9]) "a" "b" 2).link_utilization ("a", "b") = some 0 ∧
      lookupL (add_link (runD [.addNode "a", .addNode "b", .addLink "a" "b" 1,
        .injectFlow "a" "b" "data" 9]) "a" "b" 2).link_utilization ("b", "a") = some 0) :=
  ⟨⟨by decide, by decide⟩,
    claim_C8_remove_add_link_resets_ledger _ "a" "b" 2 (by decide) (by decide)⟩

theorem allPaths_self_mem (s : SDNState) (src : String) (p : List String)
    (h : p ∈ allPaths s src src) : p = [src] := by
  obtain ⟨hnd, hw⟩ := (mem_allPaths s src src p).mp h
  obtain ⟨hhead, hlast, -, -⟩ := (isWalk_iff s p src src).mp hw
  cases p with
  | nil => cases hhead
  | cons a rest =>
      have ha : a = src := by
        simp only [List.head?_cons, Option.some.injEq] at hhead
        exact hhead
      subst ha
      cases rest with
      | nil => rfl
      | cons b rest' =>
          rw [List.getLast?_cons_cons] at hlast
          obtain ⟨hne, heq⟩ := List.mem_getLast?_eq_getLast (show a ∈ _ from hlast)
          have hmem : a ∈ b :: rest' := heq ▸ List.getLast_mem hne
          exact absurd hmem (List.nodup_cons.mp hnd).1

theorem singleton_mem_allPaths (s : SDNState) (src : String) (h : hasNode s src = true) :
    [src] ∈ allPaths s src src := by
  rw [mem_allPaths]
  refine ⟨List.nodup_singleton src, ?_⟩
  rw [isWalk_iff]
  refine ⟨rfl, rfl, rfl, ?_⟩
  intro x hx
  rw [List.mem_singleton] at hx
  subst hx
  exact (hasNode_iff s x).mp h

theorem pickMin_const (L : Ledger) (ps : List (List String)) (x : List String)
    (hne : ps ≠ []) (hall : ∀ p ∈ ps, p = x) : pickMin L ps = some x := by
  cases hp : pickMin L ps with
  | none => exact absurd ((pickMin_eq_none_iff L ps).mp hp) hne
  | some p => rw [hall p (pickMin_spec L ps p hp).1]

theorem compute_path_self (s : SDNState) (src t : String) (h : hasNode s src = true) :
    compute_path s src src t = some [src] := by
  unfold compute_path
  rw [if_pos (by simp [h])]
  apply pickMin_const
  · have hmem : [src] ∈ all_shortest_paths s src src := by
      rw [mem_all_shortest_paths]
      refine ⟨singleton_mem_allPaths s src h, ?_⟩
      intro q hq
      rw [allPaths_self_mem s src q hq]
    exact List.ne_nil_of_mem hmem
  · intro q hq
    exact allPaths_self_mem s src q ((mem_all_shortest_paths s src src q).mp hq).1

/-- **C10.** For every existing node `s`, `inject_traffic_flow(s, s, type, bw)`
succeeds: it appends a flow whose path is the single-node sequence `[s]` and
leaves the Utilization Ledger (and the rest of the state) unchanged — no edge
is traversed, so no bandwidth is reserved. -/
theorem claim_C10_self_flow_admitted (s : SDNState) (src t : String) (bw : Int)
    (h : hasNode s src = true) :
    inject_traffic_flow s src src t bw =
      some ({ s with flows := s.flows ++ [⟨src, src, t, bw, [src]⟩] }, some [src]) := by
  unfold inject_traffic_flow
  rw [if_neg (by simp [h]), compute_path_self s src t h]
  rfl

theorem claim_C10_witness :

    hasNode (runD [.addNode "a"]) "a" = true ∧
    inject_traffic_flow (runD [.addNode "a"]) "a" "a" "video" 7 =
      some ({ runD [.addNode "a"] with
        flows := (runD [.addNode "a"]).flows ++ [⟨"a", "a", "video", 7, ["a"]⟩] },
        some ["a"]) :=
  ⟨by decide, claim_C10_self_flow_admitted (runD [.addNode "a"]) "a" "video" 7 (by decide)⟩

/-- **C3.** For every successful admission, the new flow record (with the
returned path) is appended to the active flow set, and for every consecutive
pair `(a, b)` of the returned path the ledger entries `(a, b)` and `(b, a)`
each increase by exactly the flow's bandwidth. -/
theorem claim_C3_admission_updates_ledger (s s' : SDNState) (src dst t : String) (bw : Int)
    (p : List String) (h : inject_traffic_flow s src dst t bw = some (s', some p)) :
    s'.flows = s.flows ++ [⟨src, dst, t, bw, p⟩] ∧
    ∀ a b, (a, b) ∈ pairsOf p →
      lookupL s'.link_utilization (a, b) =
        (lookupL s.link_utilization (a, b)).map (fun x => x + bw) ∧
      lookupL s'.link_utilization (b, a) =
        (lookupL s.link_utilization (b, a)).map (fun x => x + bw) := by
  unfold inject_traffic_flow at h
  by_cases hg : (!hasNode s src ∨ !hasNode s dst)
  · rw [if_pos hg] at h
    simp at h
  · rw [if_neg hg] at h
    cases hcp : compute_path s src dst t with
    | none =>
        rw [hcp] at h
        simp at h
    | some q =>
        rw [hcp] at h
        simp only at h
        cases hinc : incPath s.link_utilization q bw with
        | none =>
            rw [hinc] at h
            simp at h
        | some L' =>
            rw [hinc] at h
            simp only [Option.some.injEq, Prod.mk.injEq] at h
            obtain ⟨h1, h2⟩ := h
            have hqp : q = p := by
              simpa using h2
            subst hqp
            obtain ⟨hnd, -⟩ :=
              (mem_allPaths s src dst q).mp (compute_path_mem_allPaths s src dst t q hcp)
            constructor
            · rw [← h1]
            · intro a b hab
              have := incPath_lookup_pair q s.link_utilization L' bw hnd hinc a b hab
              rw [← h1]
              exact this

/-- Concrete three-node state used to witness admission claims. -/
def triangleState : SDNState :=
  runD [.addNode "a", .addNode "b", .addNode "c",
    .addLink "a" "b" 1, .addLink "b" "c" 1, .addLink "a" "c" 5]

/-- The state after admitting the witness flow on `triangleState`. -/
def triangleAfterInject : SDNState :=
  ((inject_traffic_flow triangleState "a" "c" "data" 10).getD (triangleState, none)).1

theorem claim_C3_witness :
    triangleAfterInject.flows =
      triangleState.flows ++ [⟨"a", "c", "data", 10, ["a", "b", "c"]⟩] ∧
    ∀ a b, (a, b) ∈ pairsOf ["a", "b", "c"] →
      lookupL triangleAfterInject.link_utilization (a, b) =
        (lookupL triangleState.link_utilization (a, b)).map (fun x => x + 10) ∧
      lookupL triangleAfterInject.link_utilization (b, a) =
        (lookupL triangleState.link_utilization (b, a)).map (fun x => x + 10) :=
  claim_C3_admission_updates_ledger triangleState triangleAfterInject "a" "c" "data" 10
    ["a", "b", "c"] (by decide)

/-- The command sequence of the concrete failure/reroute scenario. -/
def failoverOps : List Op :=
  [.addNode "a", .addNode "b", .addNode "c",
    .addLink "a" "b" 1, .addLink "b" "c" 1, .addLink "a" "c" 5,
    .injectFlow "a" "c" "data" 10, .failLink "a" "b"]

/-- **C6.** In the state with nodes `{a,b,c}`, links `a–b` (weight 1), `b–c`
(weight 1), `a–c` (weight 5), and one flow of bandwidth 10 admitted on path
`[a,b,c]`, `simulate_link_failure(a,b)` reroutes that flow to `[a,c]`;
afterwards ledger entries `(a,b)`/`(b,a)` no longer exist, `(a,c)`/`(c,a)`
both equal 10, and `(b,c)`/`(c,b)` hold the released value 0. -/
theorem claim_C6_concrete_failover :
    (runList initState failoverOps).isSome = true ∧
    (runD (failoverOps.take 7)).flows.map TrafficFlow.path = [["a", "b", "c"]] ∧
    (runD failoverOps).flows.map TrafficFlow.path = [["a", "c"]] ∧
    lookupL (runD failoverOps).link_utilization ("a", "b") = none ∧
    lookupL (runD failoverOps).link_utilization ("b", "a") = none ∧
    lookupL (runD failoverOps).link_utilization ("a", "c") = some 10 ∧
    lookupL (runD failoverOps).link_utilization ("c", "a") = some 10 ∧
    lookupL (runD failoverOps).link_utilization ("b", "c") = some 0 ∧
    lookupL (runD failoverOps).link_utilization ("c", "b") = some 0 := by decide

/-- Does a command delete a node? -/
def Op.isRemoveNode : Op → Bool
  | .removeNode _ => true
  | _ => false

/-- The command sequence showing that `remove_node` leaves ledger entries
behind: `remove_node` deletes the node and its incident links but never
touches `self.link_utilization`. -/
def staleLedgerOps : List Op :=
  [.addNode "a", .addNode "b", .addLink "a" "b" 1, .removeNode "a"]

theorem claim_C2_counterexample :
    memKey (runD staleLedgerOps).link_utilization ("a", "b") = true ∧
    memKey (runD staleLedgerOps).link_utilization ("b", "a") = true ∧
    hasEdge (runD staleLedgerOps) "a" "b" = false := by decide

/-- Both directions of the entry-exists-iff-link-exists invariant. -/
def IffInv (s : SDNState) : Prop :=
  ∀ u v : String, memKey s.link_utilization (u, v) = true ↔ hasEdge s u v = true

theorem IffInv_to_LedgerInv (s : SDNState) (h : IffInv s) : LedgerInv s := by
  intro u v he
  refine ⟨(h u v).mpr he, (h v u).mpr ?_⟩
  rw [hasEdge_symm]
  exact he

theorem IffInv_add_node (s : SDNState) (n : String) (h : IffInv s) : IffInv (add_node s n) := by
  unfold add_node
  split
  · exact h
  · intro u v
    exact h u v

theorem findEdge_isSome_iff (a b : String) (es : List (String × String × Nat)) :
    (findEdge a b es).isSome = true ↔
      ∃ e ∈ es, (e.1 = a ∧ e.2.1 = b) ∨ (e.1 = b ∧ e.2.1 = a) := by
  induction es with
  | nil => simp [findEdge]
  | cons e rest ih =>
      obtain ⟨x, y, w⟩ := e
      by_cases h : (x = a ∧ y = b) ∨ (x = b ∧ y = a)
      · simp [findEdge, h]
      · simp [findEdge, h, ih]

theorem hasEdge_add_link (s : SDNState) (u v a b : String) (w : Nat)
    (hu : hasNode s u = true) (hv : hasNode s v = true)
    (hne1 : (a, b) ≠ (u, v)) (hne2 : (a, b) ≠ (v, u)) :
    hasEdge (add_link s u v w) a b = hasEdge s a b := by
  unfold add_link
  rw [if_neg (by simp [hu, hv])]
  have hmatch_excl : ∀ e : String × String × Nat,
      ((e.1 = a ∧ e.2.1 = b) ∨ (e.1 = b ∧ e.2.1 = a)) →
      ((e.1 = u ∧ e.2.1 = v) ∨ (e.1 = v ∧ e.2.1 = u)) → False := by
    rintro e (⟨h1, h2⟩ | ⟨h1, h2⟩) (⟨h3, h4⟩ | ⟨h3, h4⟩)
    · exact hne1 (by rw [← h1, ← h2, h3, h4])
    · exact hne2 (by rw [← h1, ← h2, h3, h4])
    · exact hne2 (by rw [← h1, ← h2, h3, h4])
    · exact hne1 (by rw [← h1, ← h2, h3, h4])
  show (findEdge a b (eraseEdge u v s.edges ++ [(u, v, w)])).isSome =
    (findEdge a b s.edges).isSome
  cases hq : (findEdge a b s.edges).isSome with
  | true =>
      obtain ⟨e, hmem, hm⟩ := (findEdge_isSome_iff a b s.edges).mp hq
      rw [(findEdge_isSome_iff a b _).mpr ?_]
      refine ⟨e, List.mem_append.mpr (Or.inl ?_), hm⟩
      rw [mem_eraseEdge]
      exact ⟨hmem, fun hc => hmatch_excl e hm hc⟩
  | false =>
      cases hcase : (findEdge a b (eraseEdge u v s.edges ++ [(u, v, w)])).isSome with
      | false => rfl
      | true =>
          exfalso
          obtain ⟨e, hmem, hm⟩ := (findEdge_isSome_iff a b _).mp hcase
          rcases List.mem_append.mp hmem with hold | hnew
          · rw [mem_eraseEdge] at hold
            have : (findEdge a b s.edges).isSome = true :=
              (findEdge_isSome_iff a b s.edges).mpr ⟨e, hold.1, hm⟩
            rw [hq] at this
            cases this
          · rw [List.mem_singleton] at hnew
            subst hnew
            simp only at hm
            rcases hm with ⟨h1, h2⟩ | ⟨h1, h2⟩
            · exact hne1 (by rw [← h1, ← h2])
            · exact hne2 (by rw [← h1, ← h2])

theorem hasEdge_add_link_self (s : SDNState) (u v : String) (w : Nat)
    (hu : hasNode s u = true) (hv : hasNode s v = true) :
    hasEdge (add_link s u v w) u v = true := by
  unfold add_link
  rw [if_neg (by simp [hu, hv])]
  show (findEdge u v (eraseEdge u v s.edges ++ [(u, v, w)])).isSome = true
  exact (findEdge_isSome_iff u v _).mpr
    ⟨(u, v, w), List.mem_append.mpr (Or.inr (by simp)), Or.inl ⟨rfl, rfl⟩⟩

theorem hasEdge_remove_link (s : SDNState) (u v a b : String)
    (hne1 : (a, b) ≠ (u, v)) (hne2 : (a, b) ≠ (v, u)) :
    hasEdge (remove_link s u v) a b = hasEdge s a b := by
  unfold remove_link
  by_cases hc : (!hasEdge s u v) = true
  · rw [if_pos hc]
  · rw [if_neg hc]
    have hmatch_excl : ∀ e : String × String × Nat,
        ((e.1 = a ∧ e.2.1 = b) ∨ (e.1 = b ∧ e.2.1 = a)) →
        ((e.1 = u ∧ e.2.1 = v) ∨ (e.1 = v ∧ e.2.1 = u)) → False := by
      rintro e (⟨h1, h2⟩ | ⟨h1, h2⟩) (⟨h3, h4⟩ | ⟨h3, h4⟩)
      · exact hne1 (by rw [← h1, ← h2, h3, h4])
      · exact hne2 (by rw [← h1, ← h2, h3, h4])
      · exact hne2 (by rw [← h1, ← h2, h3, h4])
      · exact hne1 (by rw [← h1, ← h2, h3, h4])
    show (findEdge a b (eraseEdge u v s.edges)).isSome = (findEdge a b s.edges).isSome
    cases hq : (findEdge a b s.edges).isSome with
    | true =>
        obtain ⟨e, hmem, hm⟩ := (findEdge_isSome_iff a b s.edges).mp hq
        rw [(findEdge_isSome_iff a b _).mpr ?_]
        refine ⟨e, ?_, hm⟩
        rw [mem_eraseEdge]
        exact ⟨hmem, fun hc2 => hmatch_excl e hm hc2⟩
    | false =>
        cases hcase : (findEdge a b (eraseEdge u v s.edges)).isSome with
        | false => rfl
        | true =>
            exfalso
            obtain ⟨e, hmem, hm⟩ := (findEdge_isSome_iff a b _).mp hcase
            rw [mem_eraseEdge] at hmem
            have : (findEdge a b s.edges).isSome = true :=
              (findEdge_isSome_iff a b s.edges).mpr ⟨e, hmem.1, hm⟩
            rw [hq] at this
            cases this

theorem hasEdge_remove_link_self (s : SDNState) (u v : String)
    (h : hasEdge s u v = true) :
    hasEdge (remove_link s u v) u v = false := by
  unfold remove_link
  rw [if_neg (by simp [h])]
  show (findEdge u v (eraseEdge u v s.edges)).isSome = false
  cases hcase : (findEdge u v (eraseEdge u v s.edges)).isSome with
  | false => rfl
  | true =>
      exfalso
      obtain ⟨e, hmem, hm⟩ := (findEdge_isSome_iff u v _).mp hcase
      rw [mem_eraseEdge] at hmem
      exact hmem.2 hm

theorem memKey_add_link_other (s : SDNState) (u v : String) (w : Nat) (k : String × String)
    (hu : hasNode s u = true) (hv : hasNode s v = true)
    (hk1 : k ≠ (u, v)) (hk2 : k ≠ (v, u)) :
    memKey (add_link s u v w).link_utilization k = memKey s.link_utilization k := by
  unfold add_link
  rw [if_neg (by simp [hu, hv])]
  show memKey (setKey (setKey s.link_utilization (u, v) 0) (v, u) 0) k = _
  rw [memKey_setKey_ne _ _ _ _ hk2, memKey_setKey_ne _ _ _ _ hk1]

theorem memKey_add_link_self (s : SDNState) (u v : String) (w : Nat)
    (hu : hasNode s u = true) (hv : hasNode s v = true) :
    memKey (add_link s u v w).link_utilization (u, v) = true ∧
    memKey (add_link s u v w).link_utilization (v, u) = true := by
  obtain ⟨h1, h2⟩ := add_link_lookup s u v w hu hv
  unfold memKey
  rw [h1, h2]
  exact ⟨rfl, rfl⟩

theorem memKey_remove_link_other (s : SDNState) (u v : String) (k : String × String)
    (hk1 : k ≠ (u, v)) (hk2 : k ≠ (v, u)) :
    memKey (remove_link s u v).link_utilization k = memKey s.link_utilization k := by
  unfold remove_link
  by_cases hc : (!hasEdge s u v) = true
  · rw [if_pos hc]
  · rw [if_neg hc]
    show memKey (popKey (popKey s.link_utilization (u, v)) (v, u)) k = _
    rw [memKey_popKey_ne _ _ _ hk2, memKey_popKey_ne _ _ _ hk1]

theorem memKey_remove_link_self (s : SDNState) (u v : String) (h : hasEdge s u v = true) :
    memKey (remove_link s u v).link_utilization (u, v) = false ∧
    memKey (remove_link s u v).link_utilization (v, u) = false := by
  unfold remove_link
  rw [if_neg (by simp [h])]
  constructor
  · show memKey (popKey (popKey s.link_utilization (u, v)) (v, u)) (u, v) = false
    by_cases huv : (u, v) = (v, u)
    · rw [huv, memKey_popKey_self]
    · rw [memKey_popKey_ne _ _ _ huv, memKey_popKey_self]
  · show memKey (popKey (popKey s.link_utilization (u, v)) (v, u)) (v, u) = false
    exact memKey_popKey_self _ _

theorem IffInv_of_eqs (s s' : SDNState) (h : IffInv s) (he : s'.edges = s.edges)
    (hm : ∀ k, memKey s'.link_utilization k = memKey s.link_utilization k) :
    IffInv s' := by
  intro a b
  rw [hm]
  have : hasEdge s' a b = hasEdge s a b := by
    unfold hasEdge
    rw [he]
  rw [this]
  exact h a b

theorem IffInv_add_link (s : SDNState) (u v : String) (w : Nat) (h : IffInv s) :
    IffInv (add_link s u v w) := by
  by_cases hg : hasNode s u = true ∧ hasNode s v = true
  · intro a b
    by_cases hab1 : a = u ∧ b = v
    · obtain ⟨rfl, rfl⟩ := hab1
      rw [(memKey_add_link_self s a b w hg.1 hg.2).1,
        hasEdge_add_link_self s a b w hg.1 hg.2]
    · by_cases hab2 : a = v ∧ b = u
      · obtain ⟨rfl, rfl⟩ := hab2
        rw [(memKey_add_link_self s b a w hg.1 hg.2).2]
        rw [hasEdge_symm, hasEdge_add_link_self s b a w hg.1 hg.2]
      · have hk1 : (a, b) ≠ (u, v) := fun hc =>
          hab1 ⟨congrArg Prod.fst hc, congrArg Prod.snd hc⟩
        have hk2 : (a, b) ≠ (v, u) := fun hc =>
          hab2 ⟨congrArg Prod.fst hc, congrArg Prod.snd hc⟩
        rw [memKey_add_link_other s u v w (a, b) hg.1 hg.2 hk1 hk2,
          hasEdge_add_link s u v a b w hg.1 hg.2 hk1 hk2]
        exact h a b
  · have heq : add_link s u v w = s := by
      unfold add_link
      rw [if_pos]
      by_cases hu : hasNode s u = true
      · refine Or.inr ?_
        simp only [Bool.not_eq_true']
        cases hv : hasNode s v
        · rfl
        · exact absurd ⟨hu, hv⟩ hg
      · refine Or.inl ?_
        simp only [Bool.not_eq_true']
        cases hu' : hasNode s u
        · rfl
        · exact absurd hu' hu
    rw [heq]
    exact h

theorem IffInv_remove_link (s : SDNState) (u v : String) (h : IffInv s) :
    IffInv (remove_link s u v) := by
  by_cases hc : hasEdge s u v = true
  · intro a b
    by_cases hab1 : a = u ∧ b = v
    · obtain ⟨rfl, rfl⟩ := hab1
      rw [(memKey_remove_link_self s a b hc).1, hasEdge_remove_link_self s a b hc]
    · by_cases hab2 : a = v ∧ b = u
      · obtain ⟨rfl, rfl⟩ := hab2
        rw [(memKey_remove_link_self s b a hc).2]
        rw [hasEdge_symm, hasEdge_remove_link_self s b a hc]
      · have hk1 : (a, b) ≠ (u, v) := fun hcq =>
          hab1 ⟨congrArg Prod.fst hcq, congrArg Prod.snd hcq⟩
        have hk2 : (a, b) ≠ (v, u) := fun hcq =>
          hab2 ⟨congrArg Prod.fst hcq, congrArg Prod.snd hcq⟩
        rw [memKey_remove_link_other s u v (a, b) hk1 hk2,
          hasEdge_remove_link s u v a b hk1 hk2]
        exact h a b
  · have heq : remove_link s u v = s := by
      unfold remove_link
      rw [if_pos]
      simp only [Bool.not_eq_true']
      cases hq : hasEdge s u v
      · rfl
      · exact absurd hq hc
    rw [heq]
    exact h

theorem simulate_eqs (s : SDNState) (u v : String) (hInv : LedgerInv s) :
    ∃ s', simulate_link_failure s u v = some s' ∧
      s'.nodes = (remove_link s u v).nodes ∧
      s'.edges = (remove_link s u v).edges ∧
      ∀ k, memKey s'.link_utilization k = memKey (remove_link s u v).link_utilization k := by
  unfold simulate_link_failure
  by_cases hc : (!hasEdge s u v) = true
  · rw [if_pos hc]
    have heq : remove_link s u v = s := by
      unfold remove_link
      rw [if_pos hc]
    exact ⟨s, rfl, by rw [heq], by rw [heq], fun k => by rw [heq]⟩
  · rw [if_neg hc]
    obtain ⟨s1, fs', hpfs, hn, he, hf, hm, hlen⟩ :=
      processFlows_some u v (remove_link s u v).flows (remove_link s u v)
        (LedgerInv_remove_link s u v hInv)
    exact ⟨{ s1 with flows := fs' }, by simp only [hpfs], hn, he, hm⟩

theorem applyOp_IffInv (s : SDNState) (op : Op) (h : IffInv s)
    (hop : op.isRemoveNode = false) :
    ∃ s', applyOp s op = some s' ∧ IffInv s' := by
  cases op with
  | addNode n => exact ⟨_, rfl, IffInv_add_node s n h⟩
  | removeNode n => simp [Op.isRemoveNode] at hop
  | addLink u v w => exact ⟨_, rfl, IffInv_add_link s u v w h⟩
  | removeLink u v => exact ⟨_, rfl, IffInv_remove_link s u v h⟩
  | injectFlow src dst t bw =>
      obtain ⟨s', res, hinj, hn, he, hm⟩ :=
        inject_some s src dst t bw (IffInv_to_LedgerInv s h)
      exact ⟨s', by simp [applyOp, hinj], IffInv_of_eqs s s' h he hm⟩
  | failLink u v =>
      obtain ⟨s', hsim, hn, he, hm⟩ := simulate_eqs s u v (IffInv_to_LedgerInv s h)
      refine ⟨s', by simp [applyOp, hsim], ?_⟩
      exact IffInv_of_eqs (remove_link s u v) s' (IffInv_remove_link s u v h) he hm
  | queryRoute src dst => exact ⟨s, rfl, h⟩

theorem runList_IffInv (ops : List Op) :
    ∀ s : SDNState, IffInv s → (∀ op ∈ ops, op.isRemoveNode = false) →
      ∃ s', runList s ops = some s' ∧ IffInv s' := by
  induction ops with
  | nil => intro s h _; exact ⟨s, rfl, h⟩
  | cons op ops ih =>
      intro s h hops
      obtain ⟨s1, hop, h1⟩ := applyOp_IffInv s op h (hops op (by simp))
      obtain ⟨s', hrun, h'⟩ := ih s1 h1 (fun o ho => hops o (List.mem_cons_of_mem _ ho))
      exact ⟨s', by simp only [runList, hop, hrun], h'⟩

theorem IffInv_initState : IffInv initState := by
  intro u v
  simp [memKey, lookupL, hasEdge, findEdge, initState]

/-- **C2 (amended).** For every command sequence containing no `removeNode`,
a ledger entry `(u, v)` exists iff the link `{u, v}` exists; `remove_node`
itself deletes the node and all incident links from the topology but leaves
both directional ledger entries of those links in place (see the
counterexample), so the iff fails once `removeNode` is allowed. -/
theorem claim_C2_ledger_iff_link_without_removeNode (ops : List Op)
    (hops : ∀ op ∈ ops, op.isRemoveNode = false) :
    ∃ s, runList initState ops = some s ∧
      ∀ u v : String,
        memKey s.link_utilization (u, v) = true ↔ hasEdge s u v = true := by
  obtain ⟨s, hrun, h⟩ := runList_IffInv ops initState IffInv_initState hops
  exact ⟨s, hrun, h⟩

theorem claim_C2_witness :
    (∀ op ∈ [Op.addNode "a", Op.addNode "b", Op.addLink "a" "b" 1,
        Op.injectFlow "a" "b" "data" 4, Op.removeLink "a" "b"],
      op.isRemoveNode = false) ∧
    ∃ s, runList initState [Op.addNode "a", Op.addNode "b", Op.addLink "a" "b" 1,
        Op.injectFlow "a" "b" "data" 4, Op.removeLink "a" "b"] = some s ∧
      ∀ u v : String,
        memKey s.link_utilization (u, v) = true ↔ hasEdge s u v = true :=
  ⟨by decide,
    claim_C2_ledger_iff_link_without_removeNode
      [Op.addNode "a", Op.addNode "b", Op.addLink "a" "b" 1,
        Op.injectFlow "a" "b" "data" 4, Op.removeLink "a" "b"] (by decide)⟩

/-! ## Non-negativity of ledger values (C7) -/

/-- Does a command fail a link? -/
def Op.isFailLink : Op → Bool
  | .failLink _ _ => true
  | _ => false

/-- Does a command inject only non-negative bandwidth? -/
def Op.bwNonneg : Op → Bool
  | .injectFlow _ _ _ bw => decide (0 ≤ bw)
  | _ => true

/-- Every stored value of a ledger is non-negative. -/
def NonnegLedger (L : Ledger) : Prop := ∀ kv ∈ L, 0 ≤ kv.2

/-- The command sequence driving a ledger value negative: the flow's
utilization on `b–c` is reset to 0 by remove/add link, then the failure
handler releases the flow's bandwidth from it again. -/
def negativeLedgerOps : List Op :=
  [.addNode "a", .addNode "b", .addNode "c",
    .addLink "a" "b" 1, .addLink "b" "c" 1,
    .injectFlow "a" "c" "data" 10,
    .removeLink "b" "c", .addLink "b" "c" 1,
    .failLink "a" "b"]

theorem claim_C7_counterexample :
    lookupL (runD negativeLedgerOps).link_utilization ("b", "c") = some (-10) ∧
    ¬∀ kv ∈ (runD negativeLedgerOps).link_utilization, 0 ≤ kv.2 := by decide

theorem lookupL_mem (L : Ledger) (k : String × String) (x : Int)
    (h : lookupL L k = some x) : (k, x) ∈ L := by
  induction L with
  | nil => cases h
  | cons kv rest ih =>
      obtain ⟨k0, y⟩ := kv
      by_cases h0 : k0 = k
      · subst h0
        simp [lookupL] at h
        subst h
        exact List.mem_cons_self _ _
      · simp only [lookupL, if_neg h0] at h
        exact List.mem_cons_of_mem _ (ih h)

theorem mem_setKey (L : Ledger) (k : String × String) (x : Int)
    (kv : (String × String) × Int) (h : kv ∈ setKey L k x) : kv ∈ L ∨ kv = (k, x) := by
  unfold setKey at h
  rcases List.mem_append.mp h with h1 | h2
  · exact Or.inl (List.mem_filter.mp h1).1
  · exact Or.inr (List.mem_singleton.mp h2)

theorem incKey_nonneg (L L' : Ledger) (k : String × String) (d : Int)
    (hd : 0 ≤ d) (hL : NonnegLedger L) (h : incKey L k d = some L') : NonnegLedger L' := by
  unfold incKey at h
  cases hk : lookupL L k with
  | none => rw [hk] at h; cases h
  | some x =>
      rw [hk] at h
      cases h
      intro kv hkv
      rcases mem_setKey L k (x + d) kv hkv with h1 | h2
      · exact hL kv h1
      · subst h2
        have hx : 0 ≤ x := hL (k, x) (lookupL_mem L k x hk)
        exact add_nonneg hx hd

theorem incPath_nonneg (p : List String) :
    ∀ (L L' : Ledger) (bw : Int), 0 ≤ bw → NonnegLedger L →
      incPath L p bw = some L' → NonnegLedger L' := by
  induction p with
  | nil => intro L L' bw _ hL h; cases h; exact hL
  | cons x rest ih =>
      cases rest with
      | nil => intro L L' bw _ hL h; cases h; exact hL
      | cons y rest' =>
          intro L L' bw hbw hL h
          cases h1 : incKey L (x, y) bw with
          | none => simp only [incPath, h1] at h; cases h
          | some L1 =>
              cases h2 : incKey L1 (y, x) bw with
              | none => simp only [incPath, h1, h2] at h; cases h
              | some L2 =>
                  simp only [incPath, h1, h2] at h
                  exact ih L2 L' bw hbw
                    (incKey_nonneg L1 L2 (y, x) bw hbw
                      (incKey_nonneg L L1 (x, y) bw hbw hL h1) h2) h

theorem add_node_lu (s : SDNState) (n : String) :
    (add_node s n).link_utilization = s.link_utilization := by
  unfold add_node
  split <;> rfl

theorem remove_node_lu (s : SDNState) (n : String) :
    (remove_node s n).link_utilization = s.link_utilization := by
  unfold remove_node
  split <;> rfl

theorem nonneg_add_link (s : SDNState) (u v : String) (w : Nat)
    (h : NonnegLedger s.link_utilization) :
    NonnegLedger (add_link s u v w).link_utilization := by
  unfold add_link
  split
  · exact h
  · intro kv hkv
    show (0 : Int) ≤ kv.2
    rcases mem_setKey _ _ _ kv hkv with h1 | h2
    · rcases mem_setKey _ _ _ kv h1 with h3 | h4
      · exact h kv h3
      · subst h4; exact le_refl 0
    · subst h2; exact le_refl 0

theorem nonneg_remove_link (s : SDNState) (u v : String)
    (h : NonnegLedger s.link_utilization) :
    NonnegLedger (remove_link s u v).link_utilization := by
  unfold remove_link
  split
  · exact h
  · intro kv hkv
    exact h kv (List.mem_filter.mp (List.mem_filter.mp hkv).1).1

theorem inject_nonneg (s s' : SDNState) (src dst t : String) (bw : Int)
    (res : Option (List String))
    (h : inject_traffic_flow s src dst t bw = some (s', res)) (hbw : 0 ≤ bw)
    (hn : NonnegLedger s.link_utilization) : NonnegLedger s'.link_utilization := by
  unfold inject_traffic_flow at h
  by_cases hg : (!hasNode s src ∨ !hasNode s dst)
  · rw [if_pos hg] at h
    simp only [Option.some.injEq, Prod.mk.injEq] at h
    rw [← h.1]
    exact hn
  · rw [if_neg hg] at h
    cases hcp : compute_path s src dst t with
    | none =>
        rw [hcp] at h
        simp only [Option.some.injEq, Prod.mk.injEq] at h
        rw [← h.1]
        exact hn
    | some q =>
        rw [hcp] at h
        simp only at h
        cases hinc : incPath s.link_utilization q bw with
        | none => rw [hinc] at h; simp at h
        | some L' =>
            rw [hinc] at h
            simp only [Option.some.injEq, Prod.mk.injEq] at h
            rw [← h.1]
            exact incPath_nonneg q s.link_utilization L' bw hbw hn hinc

theorem applyOp_nonneg (s : SDNState) (op : Op) (hInv : LedgerInv s)
    (hnn : NonnegLedger s.link_utilization)
    (hop1 : op.isFailLink = false) (hop2 : op.bwNonneg = true) :
    ∃ s', applyOp s op = some s' ∧ LedgerInv s' ∧ NonnegLedger s'.link_utilization := by
  cases op with
  | addNode n =>
      refine ⟨_, rfl, LedgerInv_add_node s n hInv, ?_⟩
      rw [add_node_lu]
      exact hnn
  | removeNode n =>
      refine ⟨_, rfl, LedgerInv_remove_node s n hInv, ?_⟩
      rw [remove_node_lu]
      exact hnn
  | addLink u v w =>
      exact ⟨_, rfl, LedgerInv_add_link s u v w hInv, nonneg_add_link s u v w hnn⟩
  | removeLink u v =>
      exact ⟨_, rfl, LedgerInv_remove_link s u v hInv, nonneg_remove_link s u v hnn⟩
  | injectFlow src dst t bw =>
      obtain ⟨s', res, hinj, hn, he, hm⟩ := inject_some s src dst t bw hInv
      have hbw : (0 : Int) ≤ bw := by
        simpa [Op.bwNonneg] using hop2
      exact ⟨s', by simp [applyOp, hinj], LedgerInv_of_eqs s s' hInv he hm,
        inject_nonneg s s' src dst t bw res hinj hbw hnn⟩
  | failLink u v => simp [Op.isFailLink] at hop1
  | queryRoute src dst => exact ⟨s, rfl, hInv, hnn⟩

theorem runList_nonneg (ops : List Op) :
    ∀ s : SDNState, LedgerInv s → NonnegLedger s.link_utilization →
      (∀ op ∈ ops, op.isFailLink = false) → (∀ op ∈ ops, op.bwNonneg = true) →
      ∃ s', runList s ops = some s' ∧ NonnegLedger s'.link_utilization := by
  induction ops with
  | nil => intro s _ hnn _ _; exact ⟨s, rfl, hnn⟩
  | cons op ops ih =>
      intro s hInv hnn hops1 hops2
      obtain ⟨s1, hop, hInv1, hnn1⟩ :=
        applyOp_nonneg s op hInv hnn (hops1 op (by simp)) (hops2 op (by simp))
      obtain ⟨s', hrun, hnn'⟩ := ih s1 hInv1 hnn1
        (fun o ho => hops1 o (List.mem_cons_of_mem _ ho))
        (fun o ho => hops2 o (List.mem_cons_of_mem _ ho))
      exact ⟨s', by simp only [runList, hop, hrun], hnn'⟩

/-- **C7 (amended).** Every ledger value is non-negative after any command
sequence from the empty state that contains no `simulate_link_failure` and
whose injected bandwidths are all non-negative.  With `simulate_link_failure`
allowed the claim fails (see the counterexample): a remove/add-link round trip
resets an entry to 0, and the failure handler's release of a flow whose path
merely contains both failed endpoints then drives it to −bandwidth. -/
theorem claim_C7_nonneg_without_failure (ops : List Op)
    (h1 : ∀ op ∈ ops, op.isFailLink = false)
    (h2 : ∀ op ∈ ops, op.bwNonneg = true) :
    ∃ s, runList initState ops = some s ∧
      ∀ kv ∈ s.link_utilization, 0 ≤ kv.2 := by
  obtain ⟨s, hrun, hnn⟩ := runList_nonneg ops initState LedgerInv_initState
    (fun kv hkv => absurd hkv (List.not_mem_nil kv)) h1 h2
  exact ⟨s, hrun, hnn⟩

theorem claim_C7_witness :
    ((∀ op ∈ [Op.addNode "a", Op.addNode "b", Op.addLink "a" "b" 1,
        Op.injectFlow "a" "b" "data" 4, Op.removeLink "a" "b"],
      op.isFailLink = false) ∧
     (∀ op ∈ [Op.addNode "a", Op.addNode "b", Op.addLink "a" "b" 1,
        Op.injectFlow "a" "b" "data" 4, Op.removeLink "a" "b"],
      op.bwNonneg = true)) ∧
    ∃ s, runList initState [Op.addNode "a", Op.addNode "b", Op.addLink "a" "b" 1,
        Op.injectFlow "a" "b" "data" 4, Op.removeLink "a" "b"] = some s ∧
      ∀ kv ∈ s.link_utilization, 0 ≤ kv.2 :=
  ⟨⟨by decide, by decide⟩,
    claim_C7_nonneg_without_failure
      [Op.addNode "a", Op.addNode "b", Op.addLink "a" "b" 1,
        Op.injectFlow "a" "b" "data" 4, Op.removeLink "a" "b"]
      (by decide) (by decide)⟩

/-! ## Link-failure processing (C4) -/

theorem remove_link_flows (s : SDNState) (u v : String) :
    (remove_link s u v).flows = s.flows := by
  unfold remove_link
  split <;> rfl

theorem processFlow_not_member (u v : String) (s : SDNState) (f : TrafficFlow)
    (h : ¬(memB u f.path = true ∧ memB v f.path = true)) :
    processFlow u v s f = some (s, f) := by
  unfold processFlow
  rw [if_neg]
  intro hc
  rw [Bool.and_eq_true] at hc
  exact h hc

/-- The trace of the `for flow in self.flows` loop: the list of intermediate
controller states, one per processed prefix of the flow list, with each step
characterized by the membership test, the guarded release of the old path from
the current ledger, and the reroute from the released ledger. -/
theorem processFlows_trace (u v : String) (fs : List TrafficFlow) :
    ∀ (st s1 : SDNState) (fs' : List TrafficFlow),
      processFlows u v st fs = some (s1, fs') →
      ∃ sts : List SDNState,
        sts.length = fs.length + 1 ∧
        (∀ h0 : 0 < sts.length, sts.get ⟨0, h0⟩ = st) ∧
        (∀ hn : fs.length < sts.length, sts.get ⟨fs.length, hn⟩ = s1) ∧
        fs'.length = fs.length ∧
        ∀ i (hi : i < fs.length) (hi' : i < fs'.length)
          (h1 : i < sts.length) (h2 : i + 1 < sts.length),
          (¬(memB u (fs.get ⟨i, hi⟩).path = true ∧
              memB v (fs.get ⟨i, hi⟩).path = true) →
            sts.get ⟨i + 1, h2⟩ = sts.get ⟨i, h1⟩ ∧
            fs'.get ⟨i, hi'⟩ = fs.get ⟨i, hi⟩) ∧
          ((memB u (fs.get ⟨i, hi⟩).path = true ∧
              memB v (fs.get ⟨i, hi⟩).path = true) →
            match compute_path
                ⟨(sts.get ⟨i, h1⟩).nodes, (sts.get ⟨i, h1⟩).edges, (sts.get ⟨i, h1⟩).flows,
                  decPath (sts.get ⟨i, h1⟩).link_utilization (fs.get ⟨i, hi⟩).path
                    (fs.get ⟨i, hi⟩).bandwidth⟩
                (fs.get ⟨i, hi⟩).src (fs.get ⟨i, hi⟩).dst (fs.get ⟨i, hi⟩).traffic_type with
            | none =>
                sts.get ⟨i + 1, h2⟩ =
                  ⟨(sts.get ⟨i, h1⟩).nodes, (sts.get ⟨i, h1⟩).edges, (sts.get ⟨i, h1⟩).flows,
                    decPath (sts.get ⟨i, h1⟩).link_utilization (fs.get ⟨i, hi⟩).path
                      (fs.get ⟨i, hi⟩).bandwidth⟩ ∧
                fs'.get ⟨i, hi'⟩ = fs.get ⟨i, hi⟩
            | some np =>
                ∃ L2,
                  incPath (decPath (sts.get ⟨i, h1⟩).link_utilization (fs.get ⟨i, hi⟩).path
                      (fs.get ⟨i, hi⟩).bandwidth) np (fs.get ⟨i, hi⟩).bandwidth = some L2 ∧
                  sts.get ⟨i + 1, h2⟩ =
                    ⟨(sts.get ⟨i, h1⟩).nodes, (sts.get ⟨i, h1⟩).edges,
                      (sts.get ⟨i, h1⟩).flows, L2⟩ ∧
                  fs'.get ⟨i, hi'⟩ = { fs.get ⟨i, hi⟩ with path := np }) := by
  induction fs with
  | nil =>
      intro st s1 fs' h
      simp only [processFlows, Option.some.injEq, Prod.mk.injEq] at h
      obtain ⟨h1, h2⟩ := h
      refine ⟨[st], rfl, fun h0 => rfl, fun hn => h1, by rw [← h2], ?_⟩
      intro i hi
      exact absurd hi (by simp)
  | cons f fs ih =>
      intro st s1 fs' h
      cases hpf : processFlow u v st f with
      | none => simp only [processFlows, hpf] at h; cases h
      | some pairf =>
          obtain ⟨sa, f'⟩ := pairf
          cases hps : processFlows u v sa fs with
          | none => simp only [processFlows, hpf, hps] at h; cases h
          | some pair2 =>
              obtain ⟨sb, fs2⟩ := pair2
              simp only [processFlows, hpf, hps, Option.some.injEq, Prod.mk.injEq] at h
              obtain ⟨hsb, hfs2⟩ := h
              subst hsb
              subst hfs2
              obtain ⟨sts0, hlen0, hhead0, hlast0, hlen2, hstep0⟩ := ih sa sb fs2 hps
              have hpos0 : 0 < sts0.length := by omega
              refine ⟨st :: sts0, by simp [hlen0], fun h0 => rfl, ?_, by simp [hlen2], ?_⟩
              · intro hn
                show sts0.get ⟨fs.length, by omega⟩ = sb
                exact hlast0 _
              · intro i hi hi' h1 h2
                cases i with
                | zero =>
                    have hg0 : (st :: sts0).get ⟨0, h1⟩ = st := rfl
                    have hg1 : (st :: sts0).get ⟨0 + 1, h2⟩ = sts0.get ⟨0, hpos0⟩ := rfl
                    have hf0 : (f :: fs).get ⟨0, hi⟩ = f := rfl
                    have hf0' : (f' :: fs2).get ⟨0, hi'⟩ = f' := rfl
                    have hsa0 : sts0.get ⟨0, hpos0⟩ = sa := hhead0 _
                    rw [hg0, hg1, hf0, hf0', hsa0]
                    constructor
                    · intro hnot
                      have heq : processFlow u v st f = some (st, f) :=
                        processFlow_not_member u v st f hnot
                      rw [heq] at hpf
                      simp only [Option.some.injEq, Prod.mk.injEq] at hpf
                      exact ⟨hpf.1.symm, hpf.2.symm⟩
                    · intro hboth
                      unfold processFlow at hpf
                      rw [if_pos (by rw [hboth.1, hboth.2]; rfl)] at hpf
                      cases hcp : compute_path
                          ⟨st.nodes, st.edges, st.flows,
                            decPath st.link_utilization f.path f.bandwidth⟩
                          f.src f.dst f.traffic_type with
                      | none =>
                          rw [hcp] at hpf
                          simp only [Option.some.injEq, Prod.mk.injEq] at hpf
                          exact ⟨hpf.1.symm, hpf.2.symm⟩
                      | some np =>
                          rw [hcp] at hpf
                          simp only at hpf
                          cases hinc : incPath
                              (decPath st.link_utilization f.path f.bandwidth)
                              np f.bandwidth with
                          | none => rw [hinc] at hpf; cases hpf
                          | some L2 =>
                              rw [hinc] at hpf
                              simp only [Option.some.injEq, Prod.mk.injEq] at hpf
                              exact ⟨L2, hinc, hpf.1.symm, hpf.2.symm⟩
                | succ j =>
                    have hj : j < fs.length := by simpa using hi
                    have hj' : j < fs2.length := by simpa using hi'
                    have hb1 : j < sts0.length := by omega
                    have hb2 : j + 1 < sts0.length := by
                      simp only [List.length_cons] at h2
                      omega
                    have hg1 : (st :: sts0).get ⟨j + 1, h1⟩ = sts0.get ⟨j, hb1⟩ := rfl
                    have hg2 : (st :: sts0).get ⟨j + 1 + 1, h2⟩ = sts0.get ⟨j + 1, hb2⟩ := rfl
                    have hfj : (f :: fs).get ⟨j + 1, hi⟩ = fs.get ⟨j, hj⟩ := rfl
                    have hfj' : (f' :: fs2).get ⟨j + 1, hi'⟩ = fs2.get ⟨j, hj'⟩ := rfl
                    rw [hg1, hg2, hfj, hfj']
                    exact hstep0 j hj hj' hb1 hb2

/-- **C4.** During `simulate_link_failure(u, v)` (after the failed link is
removed), exactly those active flows whose stored path contains both `u` and
`v` anywhere as members (not necessarily adjacent) are processed for reroute.
For every state and every index `i` into the flow list there is a trace of
intermediate states starting at the post-removal state and ending at the
returned ledger such that: a flow failing the membership test leaves the state
untouched and survives unchanged, while a flow passing it has the ledger
decremented by its bandwidth along every consecutive edge of its old path in
both directions wherever the entry still exists — `Option.map` over an absent
entry silently skips it, as the standalone `decPath` clause states pointwise —
after which the flow is rerouted from that decremented ledger when a path
exists and is otherwise kept with its stale path. -/
theorem claim_C4_failure_selection_and_release (s : SDNState) (u v : String)
    (s' : SDNState) (hedge : hasEdge s u v = true)
    (h : simulate_link_failure s u v = some s') :
    s'.flows.length = s.flows.length ∧
    (∀ (L : Ledger) (p : List String) (bw : Int), p.Nodup →
      ∀ a b, (a, b) ∈ pairsOf p →
        lookupL (decPath L p bw) (a, b) = (lookupL L (a, b)).map (fun x => x - bw) ∧
        lookupL (decPath L p bw) (b, a) = (lookupL L (b, a)).map (fun x => x - bw)) ∧
    ∃ sts : List SDNState,
      sts.length = s.flows.length + 1 ∧
      (∀ h0 : 0 < sts.length, sts.get ⟨0, h0⟩ = remove_link s u v) ∧
      (∀ hn : s.flows.length < sts.length,
        (sts.get ⟨s.flows.length, hn⟩).link_utilization = s'.link_utilization) ∧
      ∀ i (hi : i < s.flows.length) (hi' : i < s'.flows.length)
        (h1 : i < sts.length) (h2 : i + 1 < sts.length),
        (¬(memB u (s.flows.get ⟨i, hi⟩).path = true ∧
            memB v (s.flows.get ⟨i, hi⟩).path = true) →
          sts.get ⟨i + 1, h2⟩ = sts.get ⟨i, h1⟩ ∧
          s'.flows.get ⟨i, hi'⟩ = s.flows.get ⟨i, hi⟩) ∧
        ((memB u (s.flows.get ⟨i, hi⟩).path = true ∧
            memB v (s.flows.get ⟨i, hi⟩).path = true) →
          match compute_path
              ⟨(sts.get ⟨i, h1⟩).nodes, (sts.get ⟨i, h1⟩).edges, (sts.get ⟨i, h1⟩).flows,
                decPath (sts.get ⟨i, h1⟩).link_utilization (s.flows.get ⟨i, hi⟩).path
                  (s.flows.get ⟨i, hi⟩).bandwidth⟩
              (s.flows.get ⟨i, hi⟩).src (s.flows.get ⟨i, hi⟩).dst
              (s.flows.get ⟨i, hi⟩).traffic_type with
          | none =>
              sts.get ⟨i + 1, h2⟩ =
                ⟨(sts.get ⟨i, h1⟩).nodes, (sts.get ⟨i, h1⟩).edges, (sts.get ⟨i, h1⟩).flows,
                  decPath (sts.get ⟨i, h1⟩).link_utilization (s.flows.get ⟨i, hi⟩).path
                    (s.flows.get ⟨i, hi⟩).bandwidth⟩ ∧
              s'.flows.get ⟨i, hi'⟩ = s.flows.get ⟨i, hi⟩
          | some np =>
              ∃ L2,
                incPath (decPath (sts.get ⟨i, h1⟩).link_utilization
                    (s.flows.get ⟨i, hi⟩).path (s.flows.get ⟨i, hi⟩).bandwidth)
                  np (s.flows.get ⟨i, hi⟩).bandwidth = some L2 ∧
                sts.get ⟨i + 1, h2⟩ =
                  ⟨(sts.get ⟨i, h1⟩).nodes, (sts.get ⟨i, h1⟩).edges,
                    (sts.get ⟨i, h1⟩).flows, L2⟩ ∧
                s'.flows.get ⟨i, hi'⟩ = { s.flows.get ⟨i, hi⟩ with path := np }) := by
  unfold simulate_link_failure at h
  rw [if_neg (by simp [hedge])] at h
  cases hps : processFlows u v (remove_link s u v) (remove_link s u v).flows with
  | none => rw [hps] at h; cases h
  | some pair =>
      obtain ⟨s1, fs'⟩ := pair
      rw [hps] at h
      simp only [Option.some.injEq] at h
      subst h
      have hps' : processFlows u v (remove_link s u v) s.flows = some (s1, fs') := by
        rw [← remove_link_flows s u v]
        exact hps
      obtain ⟨sts, hlen, hhead, hlast, hlen2, hstep⟩ :=
        processFlows_trace u v s.flows (remove_link s u v) s1 fs' hps'
      refine ⟨hlen2,
        fun L p bw hnd a b hab => decPath_lookup_pair p L bw hnd a b hab,
        sts, hlen, hhead, ?_, ?_⟩
      · intro hn
        show (sts.get ⟨s.flows.length, hn⟩).link_utilization = s1.link_utilization
        rw [hlast hn]
      · intro i hi hi' h1 h2
        exact hstep i hi hi' h1 h2

/-- The triangle state carrying the admitted flow `[a, b, c]`. -/
def preFailureState : SDNState := runD (failoverOps.take 7)

/-- The state `simulate_link_failure(a, b)` produces from it. -/
def postFailureState : SDNState :=
  (simulate_link_failure preFailureState "a" "b").getD initState

theorem claim_C4_witness :
    hasEdge preFailureState "a" "b" = true ∧
    simulate_link_failure preFailureState "a" "b" = some postFailureState ∧
    postFailureState.flows.length = preFailureState.flows.length :=
  ⟨by decide, by decide,
    (claim_C4_failure_selection_and_release preFailureState "a" "b" postFailureState
      (by decide) (by decide)).1⟩
